import Mathlib

/-!
# A shallow embedding of the dilog trace-matching engine (src/dilog.h)

The model below translates the dilog channel machinery from `src/dilog.h`
into executable Lean definitions.  Files are modelled as lists of lines
(every line the C++ code writes ends in a single newline, so `std::getline`
boundaries coincide with the stored lines); stream positions are line
indices, and `tellg` returns `-1` on a failed stream exactly as
`std::istream::tellg` does.  Heap-allocated `dilog::block` objects are
modelled by a store indexed by `Nat` ids so that the pointer comparisons
and shared mutation performed by the C++ code (`fBreplay.top() ==
fBlocks.top()`, mutation of `top.base` through the stack) are represented
faithfully.
-/

namespace Dilog

/-- First index at which `needle` occurs inside `hay` starting from index
`i`; mirrors `std::string::find` (which returns `npos`, here `none`, when
the needle does not occur; the empty needle occurs at index 0). -/
def strFindAux (needle : List Char) : List Char → Nat → Option Nat
  | [], i => if needle.isPrefixOf [] then some i else none
  | c :: t, i =>
    if needle.isPrefixOf (c :: t) then some i else strFindAux needle t (i + 1)

/-- `s.find(needle)` from `std::string`, as an `Option Nat`. -/
def strFind (s needle : String) : Option Nat :=
  strFindAux needle.data s.data 0

/-- The relevance predicate used throughout `dilog.h`: a line is relevant
to a prefix iff `line.find(prefix) == 1`. -/
def relevant (line pfx : String) : Bool :=
  strFind line pfx == some 1

/-- `s.substr(n)` — drop the first `n` characters. -/
def strDrop (s : String) (n : Nat) : String :=
  ⟨s.data.drop n⟩

/-- `s.find(t) == 0`, i.e. `s` starts with `t`. -/
def strStarts (s t : String) : Bool :=
  t.data.isPrefixOf s.data

/-- `prefix.substr(prefix.find_last_of("/") + 1)`: the unqualified block
name at the end of a slash-delimited prefix (the whole string when it
contains no slash, since `npos + 1 == 0`). -/
def lastComponent (p : String) : String :=
  match (p.data.reverse).findIdx? (· = '/') with
  | some i => ⟨(p.data.reverse.take i).reverse⟩
  | none => p

/-- One heap-allocated `dilog::block` object (the fields of
`class dilog::block`; `prefix` is called `pfx` here). -/
structure Blk where
  name : String
  pfx : String
  base : Int
  beginline : Nat
  ireplay : Nat
  deriving DecidableEq, Repr

def junkBlk : Blk := { name := "", pfx := "", base := 0, beginline := 0, ireplay := 0 }

/-- Ordered map `std::map<std::streampos,int>` as a sorted association
list (ascending keys). -/
def mapInsert (k : Int) (v : Nat) : List (Int × Nat) → List (Int × Nat)
  | [] => [(k, v)]
  | (k', v') :: t =>
    if k < k' then (k, v) :: (k', v') :: t
    else if k = k' then (k, v) :: t
    else (k', v') :: mapInsert k v t

def mapErase (k : Int) : List (Int × Nat) → List (Int × Nat)
  | [] => []
  | (k', v') :: t => if k = k' then t else (k', v') :: mapErase k t

/-- `auto blink = blinks.find(k); ++blink` — the entry with the smallest
key strictly greater than `k` (the code only calls this with `k` present
in the map). -/
def mapNextAfter (k : Int) : List (Int × Nat) → Option (Int × Nat)
  | [] => none
  | (k', v') :: t => if k < k' then some (k', v') else mapNextAfter k t

/-- `fBlinks[prefix]` lookup (default-constructed empty map when the key
is absent, as `std::map::operator[]` does). -/
def alistGet (p : String) : List (String × List (Int × Nat)) → List (Int × Nat)
  | [] => []
  | (q, v) :: t => if q = p then v else alistGet p t

def alistSet (p : String) (v : List (Int × Nat)) :
    List (String × List (Int × Nat)) → List (String × List (Int × Nat))
  | [] => [(p, v)]
  | (q, w) :: t => if q = p then (p, v) :: t else (q, w) :: alistSet p v t

/-- Block store lookup (a dangling id yields a junk block; the modelled
paths never read one). -/
def heapGet (h : List (Nat × Blk)) (i : Nat) : Blk :=
  match h with
  | [] => junkBlk
  | (j, b) :: t => if j = i then b else heapGet t i

def heapSet (h : List (Nat × Blk)) (i : Nat) (b : Blk) : List (Nat × Blk) :=
  match h with
  | [] => [(i, b)]
  | (j, b') :: t => if j = i then (i, b) :: t else (j, b') :: heapSet t i b

/-- The per-channel state of a `dilog` object (fields of `class dilog`).
`lines` is the content of `<channel>.dilog` (recorded lines when writing,
the input file when reading); `pos`/`failbit` model the `std::ifstream`
read cursor. -/
structure DState where
  fLineno : Nat
  fChannel : String
  lines : List String
  pos : Nat
  failbit : Bool
  fReading : Bool
  fWriting : Bool
  heap : List (Nat × Blk)
  nextId : Nat
  fBlocks : List Nat
  fBlanks : List Nat
  fBreplay : List Nat
  fRecord : List String
  fBlinks : List (String × List (Int × Nat))
  fError : String
  deriving DecidableEq, Repr

/-- `fReading->tellg()`: `-1` once the stream has failed. -/
def tellg (st : DState) : Int :=
  if st.failbit then -1 else (st.pos : Int)

/-- `std::getline(*fReading, nextmsg)`: delivers the next line, or fails
(setting the sticky failbit) at end of file. -/
def getline (st : DState) : Option String × DState :=
  if st.failbit then (none, st)
  else
    match st.lines[st.pos]? with
    | some l => (some l, { st with pos := st.pos + 1 })
    | none => (none, { st with failbit := true })

/-- `fReading->seekg(t)`: a no-op on a failed stream (the sentry fails);
seeking to an invalid (negative) position fails the stream. -/
def seekg (t : Int) (st : DState) : DState :=
  if st.failbit then st
  else if t < 0 then { st with failbit := true }
  else { st with pos := t.toNat }

/-- Update the block object with id `i` in the store. -/
def setBlk (i : Nat) (f : Blk → Blk) (st : DState) : DState :=
  { st with heap := heapSet st.heap i (f (heapGet st.heap i)) }

/-- Read the block object at the top of `fBlocks` (the stack is never
empty after construction; id 0 is the channel root). -/
def topBlk (st : DState) : Blk :=
  heapGet st.heap (st.fBlocks.headD 0)

/-- Abnormal outcomes of an operation.  `thrown` is a C++
`std::runtime_error`; `assertFail` an `assert` firing; `terminated` an
exception escaping `~block` (destructors are `noexcept`, so the process
dies); `fuelOut` marks exhausted recursion fuel in the model. -/
inductive Fault where
  | thrown : String → DState → Fault
  | assertFail : DState → Fault
  | terminated : String → DState → Fault
  | fuelOut : Fault
  deriving DecidableEq, Repr

abbrev EM (α : Type) := Except Fault α

/-! ## printf-side string processing (dilog::printf, lines 243-253) -/

/-- `vsnprintf(msg, 999, fmt, args)` writes at most 998 characters (the
size argument counts the terminating NUL).  The model takes the fully
formatted string and truncates it to 998 bytes. -/
def vsnTrunc (s : String) : String :=
  ⟨s.data.take 998⟩

/-- Index of the first newline, as `strchr(msg, '\n')` /
`std::string::find('\n')` compute it. -/
def strchrIdx : List Char → Option Nat
  | [] => none
  | c :: t => if c = '\n' then some 0 else (strchrIdx t).map (· + 1)

/-- `char *eos = strchr(msg, '\n'); if (eos != NULL) *eos = 0;` —
truncate at the first newline if one occurs. -/
def strchrCut (s : String) : String :=
  match strchrIdx s.data with
  | some i => ⟨s.data.take i⟩
  | none => s

/-- The payload `msg` computed by `dilog::printf` before branching on the
mode: vsnprintf truncation followed by the strchr newline cut. -/
def printfPayload (s : String) : String :=
  strchrCut (vsnTrunc s)

/-- The newline-erasing loop at the top of `dilog::check_message`:
`while ((nl = msg.find('\n')) != msg.npos) msg.erase(nl);`
(`erase(nl)` erases from `nl` to the end).  Fueled by the string length;
the loop body always shortens the string. -/
def normMsgAux : Nat → List Char → List Char
  | 0, l => l
  | fuel + 1, l =>
    match strchrIdx l with
    | some i => normMsgAux fuel (l.take i)
    | none => l

def normMsg (s : String) : String :=
  ⟨normMsgAux (s.data.length + 1) s.data⟩

/-! ## Scan loops

Forward-only scan loops receive fuel derived from the file length — each
iteration that consumes fuel also consumes a line, so
`st.lines.length + 1` iterations always suffice. -/

def scanFuel (st : DState) : Nat := st.lines.length + 1

/-- The verify-mode scan in the `dilog::block` constructor (lines
104-127): skip irrelevant lines (updating `base`/`beginline` past them),
accept the expected opening frame (appending the `EnterBlock` journal
entry and setting `ireplay`), raise on any other relevant line, and
return normally when the file ends. -/
def ctorScan (pfx mexpected channel : String) (bid : Nat) :
    Nat → DState → EM DState
  | 0, _ => .error .fuelOut
  | fuel + 1, st =>
    match getline st with
    | (none, st') => .ok st'
    | (some nextmsg, st') =>
      let st1 := { st' with fLineno := st'.fLineno + 1 }
      if relevant nextmsg pfx = false then
        let st2 := setBlk bid
          (fun b => { b with base := tellg st1, beginline := st1.fLineno }) st1
        ctorScan pfx mexpected channel bid fuel st2
      else if nextmsg = mexpected then
        let st2 := { st1 with fRecord := st1.fRecord ++ ["[[" ++ pfx] }
        let st3 := setBlk bid (fun b => { b with ireplay := st2.fRecord.length }) st2
        .ok st3
      else
        let err := "dilog::block error: expected new execution block \"" ++ pfx ++
          "\" at line " ++ toString st1.fLineno ++ " in " ++ channel ++
          ".dilog" ++ "\nbut found \"" ++ nextmsg ++ "\" instead."
        .error (.thrown err { st1 with fError := err })

/-- Lines 97-99 of the constructor: read the top of `fBlocks`, allocate
the new block object with prefix `top.prefix + "/" + name`, and push it
onto `fBlocks`. -/
def ctorPush (blockname : String) (st : DState) : DState :=
  { st with
      heap := heapSet st.heap st.nextId
        { name := blockname, pfx := (topBlk st).pfx ++ "/" ++ blockname,
          base := 0, beginline := 0, ireplay := 0 },
      nextId := st.nextId + 1,
      fBlocks := st.nextId :: st.fBlocks }

/-- Lines 105-106 of the constructor: store the current read position
and line number into the freshly pushed block. -/
def ctorSeed (bid : Nat) (st1 : DState) : DState :=
  setBlk bid (fun bb => { bb with base := tellg st1, beginline := st1.fLineno }) st1

/-- `dilog::block::block(channel, blockname)` (lines 83-128).  The single
registry channel stands in for `dilog::get`; the thread check is not
modelled (single-threaded executions).  Returns the id of the block that
the constructor pushed onto `fBlocks`. -/
def block_ctor (blockname : String) (st : DState) : EM (Nat × DState) :=
  if st.fError ≠ "" then .error (.thrown st.fError st)
  else
    let bid := st.nextId
    let pfx := (topBlk st).pfx ++ "/" ++ blockname
    let st1 := ctorPush blockname st
    if st1.fWriting then
      .ok (bid, { st1 with lines := st1.lines ++ ["[" ++ pfx ++ "["],
                           fLineno := st1.fLineno + 1 })
    else
      let st2 := ctorSeed bid st1
      match ctorScan pfx ("[" ++ pfx ++ "[") st2.fChannel bid (scanFuel st2) st2 with
      | .ok st3 => .ok (bid, st3)
      | .error f => .error f

/-! ## next_block (dilog::next_block, lines 332-475) -/

/-- Step 2 of the reorder search (lines 354-360): when `lastmsg` is not
already the closing frame, consume lines until the closing frame of the
abandoned iteration has been read.  No relevance filter: the loop
compares whole lines.  Ends silently at end of file. -/
def scanClose (mexpected : String) : Nat → DState → DState
  | 0, st => st
  | fuel + 1, st =>
    match getline st with
    | (none, st') => st'
    | (some nextmsg, st') =>
      let st1 := { st' with fLineno := st'.fLineno + 1 }
      if nextmsg = mexpected then st1 else scanClose mexpected fuel st1

/-- Result of the opening-frame scan (lines 369-381).  The loop body
always leaves the loop after a single iteration: the matching line
breaks, end of file falls through to the replay, and every other line
pops the top block and recurses. -/
inductive OpenScanR where
  | eofR : DState → OpenScanR
  | found : DState → OpenScanR
  | popRecurse : String → DState → OpenScanR
  deriving DecidableEq, Repr

/-- The opening-frame scan of `next_block` (lines 368-381): read one
line; the expected opening frame proceeds to the replay, end of file
proceeds to the replay with a failed stream, and ANY other line — the
code has no relevance filter here — pops the top block (dropping it if
it is the top search-synthesized block of `fBreplay`, otherwise rolling
it back onto `fBlanks`) and asks for a recursive search on that line. -/
def nb_openScan (mexpO : String) (st : DState) : OpenScanR :=
  match getline st with
  | (none, st') => .eofR st'
  | (some nextmsg, st') =>
    let st1 := { st' with fLineno := st'.fLineno + 1 }
    if nextmsg = mexpO then .found st1
    else
      let isSynth : Bool :=
        match st1.fBreplay, st1.fBlocks with
        | r :: _, b :: _ => r == b
        | _, _ => false
      let st2 :=
        if isSynth then
          { st1 with fBreplay := st1.fBreplay.tail, fBlocks := st1.fBlocks.tail }
        else
          { st1 with fBlanks := st1.fBlocks.headD 0 :: st1.fBlanks,
                     fBlocks := st1.fBlocks.tail }
      .popRecurse nextmsg st2

/-- Result of one replay scan (lines 400-433): the expected line was
matched, a relevant non-matching line was hit (candidate rejected), or
the file ended (the outer loop then moves to the next journal entry). -/
inductive ScanR where
  | matched : DState → ScanR
  | mismatch : String → DState → ScanR
  | eofS : DState → ScanR
  deriving DecidableEq, Repr

/-- The inner scan of the replay loop: skip irrelevant lines, stop on the
expected line or on a relevant non-matching line, end silently at end of
file. -/
def replayScan (pfx mexpected : String) : Nat → DState → ScanR
  | 0, st => .eofS st
  | fuel + 1, st =>
    match getline st with
    | (none, st') => .eofS st'
    | (some nextmsg, st') =>
      let st1 := { st' with fLineno := st'.fLineno + 1 }
      if relevant nextmsg pfx = false then replayScan pfx mexpected fuel st1
      else if nextmsg ≠ mexpected then .mismatch nextmsg st1
      else .matched st1

/-- Outcome of the whole replay loop: either the journal suffix was
replayed (`done`) or a candidate line rejected the iteration and the
search must recurse on it. -/
inductive RepR where
  | done : DState → RepR
  | recurse : String → DState → RepR
  deriving DecidableEq, Repr

/-- Fuel for the replay loop: the journal index advances every iteration
and the journal can only grow by consuming input lines, so this bound
always suffices. -/
def replayFuel (st : DState) : Nat := st.fRecord.length + st.lines.length + 2

/-- The journal replay loop of `next_block` (lines 382-434).  `p` is the
local `prefix` variable, updated by `EnterBlock`/`LeaveBlock` entries;
`ir` is `ireplay`.  Replaying `EnterBlock` either restores the matching
rolled-back user block from `fBlanks` (storing as its `base` the offset
AFTER the consumed opening frame) or synthesizes a new block through the
public `block` constructor — which itself pushes onto `fBlocks` and scans
the input — and then pushes that block a second time.  Replaying
`LeaveBlock` asserts that the top of `fBreplay` is the top of
`fBlocks`. -/
def replayLoop (p : String) (ir : Nat) : Nat → DState → EM RepR
  | 0, _ => .error .fuelOut
  | fuel + 1, st =>
    if h : ir < st.fRecord.length then
      let e := st.fRecord.get ⟨ir, h⟩
      if strStarts e "[[" then
        let p' := strDrop e 2
        let mexp := "[" ++ p' ++ "["
        match replayScan p' mexp (scanFuel st) st with
        | .eofS st1 => replayLoop p' (ir + 1) fuel st1
        | .mismatch l st1 => .ok (.recurse l st1)
        | .matched st1 =>
          let reuse : Bool :=
            match st1.fBlanks with
            | bl :: _ => (heapGet st1.heap bl).pfx == p' &&
                         (heapGet st1.heap bl).ireplay == ir + 1
            | [] => false
          if reuse then
            let bl := st1.fBlanks.headD 0
            let st2 := setBlk bl
              (fun b => { b with base := tellg st1, beginline := st1.fLineno }) st1
            let st3 := { st2 with fBlocks := bl :: st2.fBlocks,
                                  fBlanks := st2.fBlanks.tail }
            replayLoop p' (ir + 1) fuel st3
          else
            match block_ctor (lastComponent p') st1 with
            | .error f => .error f
            | .ok (bid, st2) =>
              let st3 := setBlk bid (fun b => { b with ireplay := ir + 1 }) st2
              let st4 := { st3 with fBreplay := bid :: st3.fBreplay,
                                    fBlocks := bid :: st3.fBlocks }
              replayLoop p' (ir + 1) fuel st4
      else if strStarts e "]]" then
        let p' := strDrop e 2
        let mexp := "]" ++ p' ++ "]"
        match replayScan p' mexp (scanFuel st) st with
        | .eofS st1 => replayLoop p' (ir + 1) fuel st1
        | .mismatch l st1 => .ok (.recurse l st1)
        | .matched st1 =>
          match st1.fBreplay, st1.fBlocks with
          | rb :: rt, bb :: bt =>
            if rb = bb then
              let st2 := { st1 with fBreplay := rt, fBlocks := bt }
              replayLoop (topBlk st2).pfx (ir + 1) fuel st2
            else .error (.assertFail st1)
          | _, _ => .error (.assertFail st1)
      else
        let mexp := "[" ++ p ++ "]" ++ strDrop e 2
        match replayScan p mexp (scanFuel st) st with
        | .eofS st1 => replayLoop p (ir + 1) fuel st1
        | .mismatch l st1 => .ok (.recurse l st1)
        | .matched st1 => replayLoop p (ir + 1) fuel st1
    else
      .ok (.done st)

/-- `dilog::next_block(lastmsg)` (lines 332-475).  The `while` loop body
returns on every path, so it is modelled as a conditional; the explicit
fuel bounds the recursion depth (call sites at lines 380 and 405).  The
final diagnostic printing (lines 440-473) has no effect on the channel
state and is not modelled. -/
def next_block (lastmsg : String) : Nat → DState → EM (Bool × DState)
  | 0, _ => .error .fuelOut
  | fuel + 1, st =>
    if st.fBlocks.length > 1 then
      let topId := st.fBlocks.headD 0
      let top := heapGet st.heap topId
      let blinks1 := mapInsert top.base top.beginline (alistGet top.pfx st.fBlinks)
      let st1 := { st with fBlinks := alistSet top.pfx blinks1 st.fBlinks }
      let mexpC := "]" ++ top.pfx ++ "]"
      let st2 := if lastmsg ≠ mexpC then scanClose mexpC (scanFuel st1) st1 else st1
      let st3 :=
        match mapNextAfter top.base (alistGet top.pfx st2.fBlinks) with
        | some (k, v) => { seekg k st2 with fLineno := v }
        | none => st2
      let st4 := setBlk topId
        (fun b => { b with base := tellg st3, beginline := st3.fLineno }) st3
      match nb_openScan ("[" ++ top.pfx ++ "[") st4 with
      | .popRecurse l st5 => next_block l fuel st5
      | .eofR st5 =>
        let t := heapGet st5.heap topId
        match replayLoop t.pfx t.ireplay (replayFuel st5) st5 with
        | .error f => .error f
        | .ok (.recurse l st6) => next_block l fuel st6
        | .ok (.done st6) =>
          if st6.fBreplay ≠ [] then .error (.assertFail st6)
          else if st6.fBlanks ≠ [] then .error (.assertFail st6)
          else .ok (true, st6)
      | .found st5 =>
        let t := heapGet st5.heap topId
        match replayLoop t.pfx t.ireplay (replayFuel st5) st5 with
        | .error f => .error f
        | .ok (.recurse l st6) => next_block l fuel st6
        | .ok (.done st6) =>
          if st6.fBreplay ≠ [] then .error (.assertFail st6)
          else if st6.fBlanks ≠ [] then .error (.assertFail st6)
          else .ok (true, st6)
    else
      .ok (false, st)

/-! ## check_message and printf (lines 232-265, 299-330) -/

/-- The scan loop of `dilog::check_message` (lines 311-326).  `pfxTop`
and `mexp` are fixed at entry (the C++ code hoists the block reference
and the expected string); an unrecoverable mismatch or end of file
throws. -/
def cmLoop (pfxTop mexp msg : String) : Nat → DState → EM DState
  | 0, _ => .error .fuelOut
  | fuel + 1, st =>
    match getline st with
    | (none, st') =>
      let err := "dilog::printf error: read error from input file " ++
        st'.fChannel ++ ".dilog after line " ++ toString st'.fLineno
      .error (.thrown err { st' with fError := err })
    | (some nextmsg, st') =>
      let st1 := { st' with fLineno := st'.fLineno + 1 }
      if relevant nextmsg pfxTop = false then cmLoop pfxTop mexp msg fuel st1
      else if nextmsg = mexp then .ok st1
      else
        match next_block nextmsg fuel st1 with
        | .error f => .error f
        | .ok (true, st2) => cmLoop pfxTop mexp msg fuel st2
        | .ok (false, st2) =>
          let err := "dilog::printf error: expected dilog message \"" ++ msg ++
            "\" at line " ++ toString st2.fLineno ++ " in " ++ st2.fChannel ++
            ".dilog but found \"" ++ nextmsg ++ "\" instead."
          .error (.thrown err { st2 with fError := err })

/-- `dilog::check_message(message)` (lines 299-330).  (The local `gptr`
of the C++ code is dead — written, never read — and is not modelled.) -/
def check_message (message : String) (fuel : Nat) (st : DState) : EM DState :=
  let msg := normMsg message
  let top := topBlk st
  cmLoop top.pfx ("[" ++ top.pfx ++ "]" ++ msg) msg fuel st

/-- `dilog::printf` (lines 232-265) applied to the already formatted
message `s`; returns the `vsnprintf` byte count. -/
def printf (s : String) (fuel : Nat) (st : DState) : EM (Int × DState) :=
  if st.fError ≠ "" then .error (.thrown st.fError st)
  else
    let bytes : Int := (s.data.length : Int)
    let msg := printfPayload s
    let topPfx := (topBlk st).pfx
    if st.fWriting then
      .ok (bytes, { st with lines := st.lines ++ ["[" ++ topPfx ++ "]" ++ msg],
                            fLineno := st.fLineno + 1 })
    else
      match check_message msg fuel st with
      | .error f => .error f
      | .ok st1 =>
        let st2 :=
          if st1.fBlocks.length > 1 then
            { st1 with fRecord := st1.fRecord ++ ["[]" ++ msg] }
          else st1
        .ok (bytes, st2)

/-- `dilog::get_lineno` (lines 267-269): `return fLineno;` — written in
the throwing calling convention of the public interface to show that it
performs no pending-error check. -/
def get_lineno (st : DState) : EM (Nat × DState) :=
  .ok (st.fLineno, st)

/-! ## Block destruction (dilog::block::~block, lines 130-193) -/

/-- The scan loop of `~block` (lines 156-173): look for the closing
frame, skipping irrelevant lines; a relevant mismatch consults
`next_block`; when that fails the error is only recorded in `fError`
(never thrown from a destructor) and the loop KEEPS scanning.  An
exception thrown inside `next_block` (by the public constructor invoked
during replay synthesis) escapes the noexcept destructor and terminates
the process. -/
def dtorLoop (pfx mexpC : String) : Nat → DState → EM DState
  | 0, _ => .error .fuelOut
  | fuel + 1, st =>
    match getline st with
    | (none, st') => .ok st'
    | (some nextmsg, st') =>
      let st1 := { st' with fLineno := st'.fLineno + 1 }
      if relevant nextmsg pfx = false then dtorLoop pfx mexpC fuel st1
      else if nextmsg = mexpC then .ok st1
      else
        match next_block nextmsg fuel st1 with
        | .error (.thrown m s) => .error (.terminated m s)
        | .error f => .error f
        | .ok (true, st2) => dtorLoop pfx mexpC fuel st2
        | .ok (false, st2) =>
          let err := "dilog::block error: expected end of execution block \"" ++
            pfx ++ "\" at line " ++ toString st2.fLineno ++ " in " ++
            st2.fChannel ++ ".dilog but found \"" ++ nextmsg ++ "\" instead."
          dtorLoop pfx mexpC fuel { st2 with fError := err }

/-- `dilog::block::~block()` (lines 130-193) for the block with id
`bid`.  Returns without touching the channel when the block is not the
top of `fBlocks`.  In verify mode, after the closing frame was found (or
the file ended), performs the `fBlinks` bookkeeping: drop this
iteration's entry, optionally register the current offset as a further
candidate, and jump to the first remaining candidate. -/
def block_dtor (bid : Nat) (fuel : Nat) (st : DState) : EM DState :=
  if st.fBlocks.headD (bid + 1) ≠ bid then .ok st
  else
    let pfx := (heapGet st.heap bid).pfx
    if st.fWriting then
      .ok { st with lines := st.lines ++ ["]" ++ pfx ++ "]"],
                    fLineno := st.fLineno + 1,
                    fBlocks := st.fBlocks.tail }
    else
      match dtorLoop pfx ("]" ++ pfx ++ "]") fuel st with
      | .error f => .error f
      | .ok st1 =>
        let blinks1 := mapErase (heapGet st1.heap bid).base (alistGet pfx st1.fBlinks)
        let (st2, blinks2) :=
          if blinks1 ≠ [] then
            let newBase := tellg st1
            let stB := setBlk bid (fun bb => { bb with base := newBase }) st1
            let blinksA :=
              match blinks1.getLast? with
              | some (k, _) =>
                if newBase > k then mapInsert newBase st1.fLineno blinks1 else blinks1
              | none => blinks1
            match blinksA.head? with
            | some (k, v) => ({ seekg k stB with fLineno := v }, blinksA.tail)
            | none => (stB, blinksA)
          else (st1, blinks1)
        let st3 := { st2 with fBlinks := alistSet pfx blinks2 st2.fBlinks }
        let st4 :=
          if st3.fBlocks.length > 2 then
            { st3 with fRecord := st3.fRecord ++ ["]]" ++ pfx] }
          else
            { st3 with fRecord := [] }
        .ok { st4 with fBlocks := st4.fBlocks.tail }

/-! ## Channel construction and user-driven runs -/

/-- `dilog::dilog(channel)` (lines 273-289).  `file` is the content of
`<channel>.dilog` on disk as a list of lines — `some` when the file
exists and is readable (an `std::ifstream` on it is `good()` even when
it is empty), `none` otherwise.  Exactly one of the reader/writer is
retained, and the root block with prefix `channel` is pushed. -/
def initDilog (channel : String) (file : Option (List String)) : DState :=
  { fLineno := 0
    fChannel := channel
    lines := file.getD []
    pos := 0
    failbit := false
    fReading := file.isSome
    fWriting := file.isNone
    heap := [(0, { name := "", pfx := channel, base := 0, beginline := 0, ireplay := 0 })]
    nextId := 1
    fBlocks := [0]
    fBlanks := []
    fBreplay := []
    fRecord := []
    fBlinks := []
    fError := "" }

/-- Split a file's byte content into the lines `std::getline` delivers:
chunks separated by newlines, without a spurious empty line after a
trailing newline. -/
def splitLinesAux : List Char → List Char → List String
  | [], acc => if acc.isEmpty then [] else [⟨acc.reverse⟩]
  | c :: t, acc =>
    if c = '\n' then ⟨acc.reverse⟩ :: splitLinesAux t []
    else splitLinesAux t (c :: acc)

def splitLines (s : String) : List String :=
  splitLinesAux s.data []

/-- Channel construction from raw file content (`none` = no readable
file). -/
def initFromFs (channel : String) (file : Option String) : DState :=
  initDilog channel (file.map splitLines)

/-- One user-visible action on a channel: open a block, emit a message,
or close the innermost open user block (RAII scope exit). -/
inductive Op where
  | openB : String → Op
  | msg : String → Op
  | closeB : Op
  deriving DecidableEq, Repr

/-- Run a user call sequence.  `us` is the user-side stack of live
`dilog::block` objects (RAII: `closeB` destroys the most recent open
one).  Each operation receives `fuel` for the search recursion. -/
def runOps (fuel : Nat) : List Op → List Nat → DState → EM DState
  | [], _, st => .ok st
  | .openB n :: rest, us, st =>
    match block_ctor n st with
    | .error f => .error f
    | .ok (bid, st') => runOps fuel rest (bid :: us) st'
  | .msg s :: rest, us, st =>
    match printf s fuel st with
    | .error f => .error f
    | .ok (_, st') => runOps fuel rest us st'
  | .closeB :: rest, us, st =>
    match us with
    | [] => runOps fuel rest [] st
    | bid :: us' =>
      match block_dtor bid fuel st with
      | .error f => .error f
      | .ok st' => runOps fuel rest us' st'

/-! ## Observers on run results -/

/-- The lines on disk after a successful run (the recorded trace file). -/
def recordedLines : EM DState → List String
  | .ok st => st.lines
  | _ => []

def isOk : EM DState → Bool
  | .ok _ => true
  | _ => false

def isTerminated : EM DState → Bool
  | .error (.terminated _ _) => true
  | _ => false

def isAssertFail : EM DState → Bool
  | .error (.assertFail _) => true
  | _ => false

/-- The channel state at the moment of an abnormal outcome. -/
def faultDState? : EM DState → Option DState
  | .error (.thrown _ st) => some st
  | .error (.assertFail st) => some st
  | .error (.terminated _ st) => some st
  | _ => none

def printfOut : EM (Int × DState) → Option (Int × List String)
  | .ok (b, st) => some (b, st.lines)
  | _ => none

/-- The block-stack prefix-chain invariant of the specification: every
block directly above another on `fBlocks` has the lower block's prefix
extended by `"/" ++ name`. -/
def chainOkAux (h : List (Nat × Blk)) : List Nat → Bool
  | b :: a :: t =>
    ((heapGet h b).pfx == (heapGet h a).pfx ++ "/" ++ (heapGet h b).name) &&
      chainOkAux h (a :: t)
  | _ => true

def stackChainOk (st : DState) : Bool :=
  chainOkAux st.heap st.fBlocks

/-! ## Well-formedness of channel names and call sequences -/

/-- A channel name that is nonempty and does not begin with a frame
sigil, so that every framed line is relevant to its own prefix. -/
def chanOk (ch : String) : Bool :=
  match ch.data with
  | [] => false
  | c :: _ => c ≠ '[' && c ≠ ']'

/-- `true` on every character other than the newline. -/
def notNl (c : Char) : Bool :=
  c != '\n'

/-- No embedded newline (a name with a newline would span several file
lines when written). -/
def noNl (s : String) : Bool :=
  s.data.all notNl

def opsNoNl : List Op → Bool
  | [] => true
  | .openB n :: r => noNl n && opsNoNl r
  | .msg _ :: r => opsNoNl r
  | .closeB :: r => opsNoNl r

/-- The prefixes of the blocks on the channel stack, top first. -/
def blocksPfx (st : DState) : List String :=
  st.fBlocks.map (fun i => (heapGet st.heap i).pfx)

/-- Every prefix on the stack starts with the channel's first character
and contains no newline. -/
def pfxOk (ch p : String) : Bool :=
  (p.data.head? == ch.data.head?) && noNl p

def pstkOk (ch : String) : List String → Bool
  | [] => true
  | p :: t => pfxOk ch p && pstkOk ch t

/-! ## The pure recorder

`recGo pstk ops` is the list of lines a record-mode run appends while
executing `ops` with the given stack of open prefixes (top first, the
channel root at the bottom; a `closeB` with only the root open has no
live block object and writes nothing, matching the RAII driver). -/

def recGo : List String → List Op → List String
  | pstk, .openB n :: r =>
    ("[" ++ (pstk.headD "" ++ "/" ++ n) ++ "[") :: recGo ((pstk.headD "" ++ "/" ++ n) :: pstk) r
  | pstk, .msg s :: r =>
    ("[" ++ pstk.headD "" ++ "]" ++ printfPayload s) :: recGo pstk r
  | [], .closeB :: r => recGo [] r
  | [root], .closeB :: r => recGo [root] r
  | p :: pstk, .closeB :: r => ("]" ++ p ++ "]") :: recGo pstk r
  | _, [] => []

/-- The state the constructor's verify scan produces when the line under
the cursor is the expected opening frame: the line is consumed, the
`EnterBlock` journal entry appended, and the block's `ireplay` set to the
new journal length. -/
def ctorScanOkState (pfx : String) (bid : Nat) (ss : DState) : DState :=
  setBlk bid (fun b => { b with ireplay := (ss.fRecord ++ ["[[" ++ pfx]).length })
    { ss with pos := ss.pos + 1, fLineno := ss.fLineno + 1,
              fRecord := ss.fRecord ++ ["[[" ++ pfx] }

/-- The invariant a record-mode channel maintains while executing a call
sequence: `us` is the user-side stack of open block ids and `pstk` the
stack of open prefixes (top first, channel root at the bottom). -/
structure RecInv (ch : String) (st : DState) (us : List Nat) (pstk : List String) : Prop where
  hw : st.fWriting = true
  herr : st.fError = ""
  hstk : st.fBlocks = us ++ [0]
  hpfx : st.fBlocks.map (fun i => (heapGet st.heap i).pfx) = pstk
  hbound : ∀ i ∈ st.fBlocks, i < st.nextId
  hok : pstkOk ch pstk = true
  hlen : st.fLineno = st.lines.length

/-- The invariant a verify-mode channel maintains while replaying the
identical call sequence against the recorded file: the cursor and line
counter agree, no search bookkeeping has accumulated, and the block
stack mirrors the record-side prefix stack. -/
structure VInv (ch : String) (st : DState) (us : List Nat) (pstk : List String) : Prop where
  hw : st.fWriting = false
  hfail : st.failbit = false
  herr : st.fError = ""
  hstk : st.fBlocks = us ++ [0]
  hpfx : st.fBlocks.map (fun i => (heapGet st.heap i).pfx) = pstk
  hbound : ∀ i ∈ st.fBlocks, i < st.nextId
  hok : pstkOk ch pstk = true
  hline : st.fLineno = st.pos
  hblanks : st.fBlanks = []
  hbreplay : st.fBreplay = []
  hblinks : ∀ p, alistGet p st.fBlinks = []

/-! ## Claim-side model for channel-creation mode selection (C5) -/

/-- Modelled from the spec: "if the file `<channel>.dilog` is present and
non-empty, the channel is put in Verify mode ... otherwise (including
when the file exists but is empty) ... Record mode".  Returns `true` for
Verify.  This follows the claim's words for comparison with
`initFromFs`, which follows the code. -/
def c5_claimedVerifyMode : Option String → Bool
  | some s => s ≠ ""
  | none => false

/-! ## Concrete scenarios used by counterexamples and code-bug runs -/

/-- Record run: two contiguous iterations of outer block `O`, each
containing one iteration of inner block `I` with one message. -/
def c2RecOps : List Op :=
  [.openB "O", .openB "I", .msg "a\n", .closeB, .closeB,
   .openB "O", .openB "I", .msg "b\n", .closeB, .closeB]

/-- The same multiset of `O` iterations emitted in the other order, with
per-iteration content identical. -/
def c2VerOps : List Op :=
  [.openB "O", .openB "I", .msg "b\n", .closeB, .closeB,
   .openB "O", .openB "I", .msg "a\n", .closeB, .closeB]

/-- The trace file the record run of `c2RecOps` writes. -/
def c2File : List String :=
  ["[c/O[", "[c/O/I[", "[c/O/I]a", "]c/O/I]", "]c/O]",
   "[c/O[", "[c/O/I[", "[c/O/I]b", "]c/O/I]", "]c/O]"]

/-- A trace file truncated in the middle of its second outer iteration
(for example by a killed record run): the reorder search must replay the
`EnterBlock` journal entry against the opening frame on the last line,
and the synthesized block's constructor scan then runs into end of
file. -/
def c7File : List String :=
  ["[c/O[", "[c/O/I[", "[c/O/I]a", "]c/O/I]", "]c/O]", "[c/O[", "[c/O/I["]

def c7Ops : List Op :=
  [.openB "O", .openB "I", .msg "a\n", .closeB, .msg "x\n"]

/-- A recorded trace whose two iterations of `c/L` are separated by an
iteration of the sibling block `c/M` — every line of the `c/M` iteration
is irrelevant to the prefix `c/L`. -/
def c3File : List String :=
  ["[c/L[", "[c/L]a", "]c/L]", "[c/M[", "[c/M]m", "]c/M]", "[c/L[", "[c/L]b", "]c/L]"]

/-- The channel state at the point of `next_block`'s opening-frame scan
in a verify run of `[openB "L", msg "b"]` against `c3File`: the failed
first iteration's closing frame (line 3) has just been consumed and the
scan for the next `"[c/L["` is about to read line 4, the irrelevant
`"[c/M["`. -/
def c3State : DState :=
  { fLineno := 3
    fChannel := "c"
    lines := c3File
    pos := 3
    failbit := false
    fReading := true
    fWriting := false
    heap := [(0, { name := "", pfx := "c", base := 0, beginline := 0, ireplay := 0 }),
             (1, { name := "L", pfx := "c/L", base := 3, beginline := 3, ireplay := 1 })]
    nextId := 2
    fBlocks := [1, 0]
    fBlanks := []
    fBreplay := []
    fRecord := ["[[c/L"]
    fBlinks := [("c/L", [(0, 0)])]
    fError := "" }

/-- A state with a pending error, as left behind by a failed block
destructor (C4). -/
def c4ErrState : DState :=
  { initDilog "c" none with fError := "boom", fLineno := 7 }

/-- A message of exactly 999 formatted bytes (C6). -/
def c6Msg : String := ⟨List.replicate 999 'a'⟩

/-! # Theorems

First a collection of helper lemmas about the string, map, and stream
primitives; then the claim theorems. -/

theorem isPrefixOf_append_self (l t : List Char) : l.isPrefixOf (l ++ t) = true := by
  induction l with
  | nil => simp [List.isPrefixOf]
  | cons c cs ih => simp [List.isPrefixOf, ih]

/-- A framed line `sigil ++ p ++ rest` is relevant to `p` when `p` does
not itself begin with the sigil character: the prefix occurs at offset 1
and not at offset 0. -/
theorem relevant_of_shape (sig : Char) (p r l : String) (hp : p.data ≠ [])
    (hc : p.data.head? ≠ some sig) (hl : l.data = sig :: (p.data ++ r.data)) :
    relevant l p = true := by
  have hne : p.data.isPrefixOf (sig :: (p.data ++ r.data)) = false := by
    cases hpd : p.data with
    | nil => exact absurd hpd hp
    | cons a b =>
      have ha : a ≠ sig := by
        intro h
        apply hc
        rw [hpd, h]
        rfl
      simp [List.isPrefixOf, ha]
  have h1 : strFindAux p.data (sig :: (p.data ++ r.data)) 0 = some 1 := by
    rw [strFindAux]
    simp only [hne, Bool.false_eq_true, if_false]
    cases hq : p.data ++ r.data with
    | nil => exact absurd (List.append_eq_nil.mp hq).1 hp
    | cons x xs =>
      rw [strFindAux]
      have : p.data.isPrefixOf (p.data ++ r.data) = true := isPrefixOf_append_self _ _
      rw [hq] at this
      simp [this]
  simp [relevant, strFind, hl, h1]

theorem strchrIdx_of_all_ne (l : List Char) (h : l.all notNl = true) :
    strchrIdx l = none := by
  induction l with
  | nil => rfl
  | cons c t ih =>
    simp only [List.all_cons, Bool.and_eq_true] at h
    have hc : c ≠ '\n' := by
      have := h.1
      simpa [notNl] using this
    simp [strchrIdx, hc, ih h.2]

theorem strchrIdx_none_all (l : List Char) (h : strchrIdx l = none) :
    l.all notNl = true := by
  induction l with
  | nil => rfl
  | cons c t ih =>
    by_cases hc : c = '\n'
    · simp [strchrIdx, hc] at h
    · cases hs : strchrIdx t with
      | none => simp [List.all_cons, notNl, hc, ih hs]
      | some i => simp [strchrIdx, hc, hs] at h

theorem cut_list_eq_takeWhile (l : List Char) :
    (match strchrIdx l with
     | some i => l.take i
     | none => l) = l.takeWhile notNl := by
  induction l with
  | nil => rfl
  | cons c t ih =>
    by_cases hc : c = '\n'
    · simp [strchrIdx, hc, List.takeWhile, notNl]
    · cases h : strchrIdx t with
      | none =>
        rw [h] at ih
        simp only [strchrIdx, hc, if_false, h, Option.map_none, List.takeWhile]
        have hn : notNl c = true := by simp [notNl, hc]
        simp [hn, ← ih]
      | some i =>
        rw [h] at ih
        simp only [strchrIdx, hc, if_false, h, Option.map_some, List.takeWhile]
        have hn : notNl c = true := by simp [notNl, hc]
        simp [hn, List.take, ← ih]

theorem strchrCut_data (s : String) :
    (strchrCut s).data = s.data.takeWhile notNl := by
  rw [← cut_list_eq_takeWhile s.data]
  unfold strchrCut
  cases h : strchrIdx s.data <;> simp [h]

theorem noNl_strchrCut (s : String) : noNl (strchrCut s) = true := by
  rw [noNl, strchrCut_data]
  exact List.all_eq_true.mpr (fun x hx => List.mem_takeWhile_imp hx)

theorem normMsgAux_of_all_ne (fuel : Nat) (l : List Char) (h : l.all notNl = true) :
    normMsgAux fuel l = l := by
  cases fuel with
  | zero => rfl
  | succ f => simp [normMsgAux, strchrIdx_of_all_ne l h]

theorem normMsg_of_noNl (s : String) (h : noNl s = true) : normMsg s = s := by
  simp [normMsg, normMsgAux_of_all_ne _ _ h]

theorem noNl_printfPayload (s : String) : noNl (printfPayload s) = true :=
  noNl_strchrCut (vsnTrunc s)

theorem normMsg_printfPayload (s : String) :
    normMsg (printfPayload s) = printfPayload s :=
  normMsg_of_noNl _ (noNl_printfPayload s)

theorem heapGet_heapSet_self (h : List (Nat × Blk)) (i : Nat) (b : Blk) :
    heapGet (heapSet h i b) i = b := by
  induction h with
  | nil => simp [heapSet, heapGet]
  | cons e t ih =>
    by_cases hj : e.1 = i
    · simp [heapSet, heapGet, hj]
    · simp [heapSet, heapGet, hj, ih]

theorem heapGet_heapSet_ne (h : List (Nat × Blk)) (i j : Nat) (b : Blk) (hij : j ≠ i) :
    heapGet (heapSet h i b) j = heapGet h j := by
  induction h with
  | nil => simp [heapSet, heapGet, Ne.symm hij]
  | cons e t ih =>
    by_cases hj : e.1 = i
    · simp [heapSet, heapGet, hj, Ne.symm hij]
    · simp only [heapSet, hj, if_false, heapGet]
      by_cases he : e.1 = j <;> simp [he, ih]

theorem alistGet_alistSet_self (m : List (String × List (Int × Nat))) (p : String)
    (v : List (Int × Nat)) : alistGet p (alistSet p v m) = v := by
  induction m with
  | nil => simp [alistSet, alistGet]
  | cons e t ih =>
    by_cases hq : e.1 = p
    · simp [alistSet, alistGet, hq]
    · simp [alistSet, alistGet, hq, ih]

theorem alistGet_alistSet_ne (m : List (String × List (Int × Nat))) (p q : String)
    (v : List (Int × Nat)) (hpq : q ≠ p) : alistGet q (alistSet p v m) = alistGet q m := by
  induction m with
  | nil => simp [alistSet, alistGet, Ne.symm hpq]
  | cons e t ih =>
    by_cases he : e.1 = p
    · simp only [alistSet, he, if_true, alistGet, Ne.symm hpq, if_false]
    · simp only [alistSet, he, if_false, alistGet]
      by_cases hq : e.1 = q <;> simp [hq, ih]

theorem getElem?_of_drop_cons (l : List String) (n : Nat) (x : String) (xs : List String)
    (h : l.drop n = x :: xs) : l[n]? = some x := by
  rw [← List.head?_drop, h]; rfl

theorem drop_succ_of_drop_cons (l : List String) (n : Nat) (x : String) (xs : List String)
    (h : l.drop n = x :: xs) : l.drop (n + 1) = xs := by
  rw [← List.tail_drop, h]; rfl

theorem getElem?_of_drop_nil (l : List String) (n : Nat) (h : l.drop n = []) :
    l[n]? = none := by
  rw [← List.head?_drop, h]; rfl

theorem getline_cons (st : DState) (x : String) (xs : List String)
    (hfb : st.failbit = false) (h : st.lines.drop st.pos = x :: xs) :
    getline st = (some x, { st with pos := st.pos + 1 }) := by
  simp [getline, hfb, getElem?_of_drop_cons _ _ _ _ h]

theorem getline_nil (st : DState) (hfb : st.failbit = false)
    (h : st.lines.drop st.pos = []) :
    getline st = (none, { st with failbit := true }) := by
  simp [getline, hfb, getElem?_of_drop_nil _ _ h]

/-! ## C4: pending-error propagation -/

/-- C4 (corrected): a pending error is raised immediately by `printf` and
by the `block` constructor, but `get_lineno` performs no check at all and
returns the line counter normally (the claim included `currentLine` among
the raising operations). -/
theorem c4_pending_error_propagation (st : DState) (s n : String) (f : Nat)
    (h : st.fError ≠ "") :
    printf s f st = .error (.thrown st.fError st) ∧
    block_ctor n st = .error (.thrown st.fError st) ∧
    get_lineno st = .ok (st.fLineno, st) := by
  refine ⟨?_, ?_, rfl⟩
  · simp [printf, h]
  · simp [block_ctor, h]

/-- Witness for the corrected C4 at the concrete pending-error state. -/
theorem c4_pending_error_propagation_witness :
    c4ErrState.fError ≠ "" ∧
    (printf "m\n" 1 c4ErrState = .error (.thrown c4ErrState.fError c4ErrState) ∧
     block_ctor "b" c4ErrState = .error (.thrown c4ErrState.fError c4ErrState) ∧
     get_lineno c4ErrState = .ok (c4ErrState.fLineno, c4ErrState)) :=
  ⟨by decide, c4_pending_error_propagation c4ErrState "m\n" "b" 1 (by decide)⟩

/-- C4 counterexample: on a channel whose pending-error slot holds
`"boom"`, `get_lineno` does not raise — it returns the line counter. -/
theorem c4_get_lineno_ignores_pending_error :
    get_lineno c4ErrState = .ok (7, c4ErrState) ∧ c4ErrState.fError = "boom" := by
  constructor <;> rfl

/-! ## C5: mode selection at channel creation -/

/-- C5 (corrected): the constructor only tests whether the trace file
opened for reading is `good()`, so a readable file — even an empty one —
selects Verify mode; only an unreadable/absent file selects Record mode.
Exactly one of the reader/writer is retained. -/
theorem c5_mode_selection (ch : String) (file : Option String) :
    (initFromFs ch file).fReading = file.isSome ∧
    (initFromFs ch file).fWriting = file.isNone ∧
    (initFromFs ch file).fReading = !(initFromFs ch file).fWriting ∧
    (initFromFs ch file).fError = "" := by
  cases file <;> simp [initFromFs, initDilog]

/-- C5 counterexample: a readable but empty `<channel>.dilog` puts the
channel in Verify mode with a reader, while the claim requires Record
mode for an empty file. -/
theorem c5_empty_file_gives_verify :
    (initFromFs "c" (some "")).fReading = true ∧
    (initFromFs "c" (some "")).fWriting = false ∧
    c5_claimedVerifyMode (some "") = false := by
  refine ⟨rfl, rfl, rfl⟩

/-! ## C6: message truncation bound -/

theorem strchrCut_length_le (s : String) :
    (strchrCut s).data.length ≤ s.data.length := by
  rw [strchrCut_data]
  exact (List.takeWhile_prefix _).length_le

/-- C6 (corrected): `vsnprintf` is called with size 999, which includes
the terminating NUL, so at most 998 bytes of the formatted message
survive: a message of at most 998 bytes passes through untruncated, a
longer one — including one of exactly 999 bytes — is cut to 998, and the
call returns the full formatted byte count. -/
theorem c6_truncation_bound (s : String) (st : DState) (f : Nat)
    (hw : st.fWriting = true) (he : st.fError = "") :
    printf s f st = .ok ((s.data.length : Int),
      { st with lines := st.lines ++ ["[" ++ (topBlk st).pfx ++ "]" ++ printfPayload s],
                fLineno := st.fLineno + 1 }) ∧
    (vsnTrunc s).data.length = min s.data.length 998 ∧
    (s.data.length ≤ 998 → vsnTrunc s = s) ∧
    (printfPayload s).data.length ≤ 998 := by
  refine ⟨?_, ?_, ?_, ?_⟩
  · simp [printf, he, hw]
  · simp [vsnTrunc, Nat.min_comm]
  · intro hle
    simp [vsnTrunc, List.take_of_length_le hle]
  · calc (printfPayload s).data.length
        ≤ (vsnTrunc s).data.length := strchrCut_length_le _
      _ ≤ 998 := by simp [vsnTrunc]

/-- Witness for the corrected C6 on a concrete short message. -/
theorem c6_truncation_bound_witness :
    (initDilog "c" none).fWriting = true ∧ (initDilog "c" none).fError = "" ∧
    (printf "hi\n" 1 (initDilog "c" none) = .ok ((3 : Int),
      { (initDilog "c" none) with
          lines := [] ++ ["[" ++ (topBlk (initDilog "c" none)).pfx ++ "]" ++ printfPayload "hi\n"]
          fLineno := 1 }) ∧
     (vsnTrunc "hi\n").data.length = min 3 998 ∧
     ((3 : Nat) ≤ 998 → vsnTrunc "hi\n" = "hi\n") ∧
     (printfPayload "hi\n").data.length ≤ 998) := by
  refine ⟨rfl, rfl, ?_⟩
  have h := c6_truncation_bound "hi\n" (initDilog "c" none) 1 rfl rfl
  simpa using h

/-- C6 counterexample: a message of exactly 999 formatted bytes is
truncated — `printf` writes only 998 payload bytes (while returning the
999 byte count), so "at most 999 bytes pass through untruncated" fails
at 999. -/
theorem c6_999_byte_message_truncated :
    c6Msg.data.length = 999 ∧
    (printfPayload c6Msg).data.length = 998 ∧
    printfOut (printf c6Msg 1 (initDilog "c" none)) =
      some (999, ["[c]" ++ printfPayload c6Msg]) := by
  have hlen : c6Msg.data.length = 999 := by
    show (List.replicate 999 'a').length = 999
    rw [List.length_replicate]
  refine ⟨hlen, ?_, ?_⟩
  · have hidx : strchrIdx (vsnTrunc c6Msg).data = none := by
      apply strchrIdx_of_all_ne
      refine List.all_eq_true.mpr (fun x hx => ?_)
      have hx' : x ∈ List.replicate 999 'a' := by
        have hv : (vsnTrunc c6Msg).data = List.take 998 (List.replicate 999 'a') := rfl
        rw [hv] at hx
        exact List.mem_of_mem_take hx
      have := List.eq_of_mem_replicate hx'
      simp [notNl, this]
    have hcut : printfPayload c6Msg = vsnTrunc c6Msg := by
      rw [printfPayload, strchrCut, hidx]
    rw [hcut]
    show (List.take 998 c6Msg.data).length = 998
    rw [List.length_take, hlen]
    decide
  · have hpr : printf c6Msg 1 (initDilog "c" none) = .ok ((c6Msg.data.length : Int),
        { (initDilog "c" none) with
            lines := [] ++ ["[" ++ (topBlk (initDilog "c" none)).pfx ++ "]" ++ printfPayload c6Msg],
            fLineno := 1 }) := by
      have hw0 : (initDilog "c" none).fWriting = true := rfl
      simp only [printf]
      rw [if_neg (by simp [initDilog])]
      rw [if_pos hw0]
      rfl
    rw [hpr, hlen]
    rfl

/-! ## C10: newline handling in printf -/

/-- C10 (confirmed): when the formatted message contains a newline, the
payload that `printf` writes in Record mode — and the payload that
`check_message` builds its expected line from in Verify mode — is exactly
the text strictly before the first newline; the rest is silently
discarded and no error arises from the cut itself. -/
theorem c10_newline_truncation (s : String) (st : DState) (f : Nat)
    (hw : st.fWriting = true) (he : st.fError = "")
    (hnl : '\n' ∈ (vsnTrunc s).data) :
    printfPayload s = ⟨(vsnTrunc s).data.takeWhile notNl⟩ ∧
    printfPayload s ≠ vsnTrunc s ∧
    printf s f st = .ok ((s.data.length : Int),
      { st with
          lines := st.lines ++ ["[" ++ (topBlk st).pfx ++ "]" ++ ⟨(vsnTrunc s).data.takeWhile notNl⟩],
          fLineno := st.fLineno + 1 }) ∧
    check_message (printfPayload s) f st =
      cmLoop (topBlk st).pfx
        ("[" ++ (topBlk st).pfx ++ "]" ++ ⟨(vsnTrunc s).data.takeWhile notNl⟩)
        (⟨(vsnTrunc s).data.takeWhile notNl⟩) f st := by
  have hdata : (printfPayload s).data = (vsnTrunc s).data.takeWhile notNl :=
    strchrCut_data (vsnTrunc s)
  have hpay : printfPayload s = ⟨(vsnTrunc s).data.takeWhile notNl⟩ :=
    String.ext hdata
  refine ⟨hpay, ?_, ?_, ?_⟩
  · intro heq
    have : '\n' ∈ (printfPayload s).data := by rw [heq]; exact hnl
    rw [hdata] at this
    have := List.mem_takeWhile_imp this
    simp [notNl] at this
  · rw [← hpay]
    simp [printf, he, hw]
  · rw [← hpay, check_message, normMsg_printfPayload]

/-- Witness for C10 at a concrete message with an embedded newline. -/
theorem c10_newline_truncation_witness :
    (initDilog "c" none).fWriting = true ∧ (initDilog "c" none).fError = "" ∧
    '\n' ∈ (vsnTrunc "ab\ncd").data ∧
    (printfPayload "ab\ncd" = ⟨(vsnTrunc "ab\ncd").data.takeWhile notNl⟩ ∧
     printfPayload "ab\ncd" ≠ vsnTrunc "ab\ncd" ∧
     printf "ab\ncd" 1 (initDilog "c" none) = .ok ((5 : Int),
       { (initDilog "c" none) with
           lines := [] ++ ["[" ++ (topBlk (initDilog "c" none)).pfx ++ "]" ++ ⟨(vsnTrunc "ab\ncd").data.takeWhile notNl⟩],
           fLineno := 1 }) ∧
     check_message (printfPayload "ab\ncd") 1 (initDilog "c" none) =
       cmLoop (topBlk (initDilog "c" none)).pfx
         ("[" ++ (topBlk (initDilog "c" none)).pfx ++ "]" ++
           ⟨(vsnTrunc "ab\ncd").data.takeWhile notNl⟩)
         (⟨(vsnTrunc "ab\ncd").data.takeWhile notNl⟩) 1 (initDilog "c" none)) := by
  refine ⟨rfl, rfl, by decide, ?_⟩
  have h := c10_newline_truncation "ab\ncd" (initDilog "c" none) 1 rfl rfl (by decide)
  simpa using h

/-! ## C3: the opening-frame scan of next_block -/

/-- C3 (corrected): in step 4 of the reorder search, ANY line that is not
the expected opening frame — relevant or irrelevant alike, the code has
no relevance filter in this loop — causes the top block to be popped
(dropped when it is the top search-synthesized block of `fBreplay`,
otherwise rolled back onto `fBlanks`) and the search to recurse with that
line as the new `lastLine`. -/
theorem c3_pop_on_any_non_matching_line (mexpO l : String) (rest : List String)
    (st : DState) (hfb : st.failbit = false)
    (hl : st.lines.drop st.pos = l :: rest) (hne : l ≠ mexpO) :
    nb_openScan mexpO st = .popRecurse l
      (if (match st.fBreplay, st.fBlocks with
           | r :: _, b :: _ => r == b
           | _, _ => false) = true
       then { st with
                pos := st.pos + 1, fLineno := st.fLineno + 1,
                fBreplay := st.fBreplay.tail, fBlocks := st.fBlocks.tail }
       else { st with
                pos := st.pos + 1, fLineno := st.fLineno + 1,
                fBlanks := st.fBlocks.headD 0 :: st.fBlanks, fBlocks := st.fBlocks.tail }) := by
  rw [nb_openScan, getline_cons st l rest hfb hl]
  simp only [hne, if_false]

/-- Witness for the corrected C3 at the concrete reorder-search state of
a verify run against `c3File`. -/
theorem c3_pop_on_any_non_matching_line_witness :
    c3State.failbit = false ∧
    c3State.lines.drop c3State.pos = "[c/M[" :: ["[c/M]m", "]c/M]", "[c/L[", "[c/L]b", "]c/L]"] ∧
    "[c/M[" ≠ "[c/L[" ∧
    nb_openScan "[c/L[" c3State = .popRecurse "[c/M["
      (if (match c3State.fBreplay, c3State.fBlocks with
           | r :: _, b :: _ => r == b
           | _, _ => false) = true
       then { c3State with
                pos := c3State.pos + 1, fLineno := c3State.fLineno + 1,
                fBreplay := c3State.fBreplay.tail, fBlocks := c3State.fBlocks.tail }
       else { c3State with
                pos := c3State.pos + 1, fLineno := c3State.fLineno + 1,
                fBlanks := c3State.fBlocks.headD 0 :: c3State.fBlanks,
                fBlocks := c3State.fBlocks.tail }) :=
  ⟨rfl, rfl, by decide,
   c3_pop_on_any_non_matching_line "[c/L[" "[c/M[" _ c3State rfl rfl (by decide)⟩

/-- C3 counterexample: at the concrete reorder-search state `c3State` the
next line `"[c/M["` is IRRELEVANT to the top prefix `"c/L"` (the prefix
does not appear at offset 1), yet the scan does not skip it — it pops the
top user block onto the rolled-back stack and recurses.  This refutes
"irrelevant lines are skipped; only a relevant line ... causes the top
block to be popped". -/
theorem c3_pops_on_irrelevant_line :
    relevant "[c/M[" "c/L" = false ∧
    (topBlk c3State).pfx = "c/L" ∧
    nb_openScan "[c/L[" c3State =
      .popRecurse "[c/M["
        { c3State with pos := 4, fLineno := 4, fBlanks := [1], fBlocks := [0] } := by
  refine ⟨by decide, rfl, ?_⟩
  simp [nb_openScan, getline, c3State, c3File]

/-! ## C9: block open scanning to end of file -/

theorem ctorScan_all_irrelevant (pfx mexp ch : String) (bid : Nat) :
    ∀ (fuel : Nat) (st : DState), st.lines.length - st.pos < fuel →
      (st.lines.drop st.pos).all (fun l => !(relevant l pfx)) = true →
      ∃ st', ctorScan pfx mexp ch bid fuel st = .ok st' ∧
        st'.fBlocks = st.fBlocks ∧ st'.fError = st.fError ∧ st'.fRecord = st.fRecord := by
  intro fuel
  induction fuel with
  | zero => intro st h _; omega
  | succ f ih =>
    intro st hf hall
    by_cases hfb : st.failbit
    · exact ⟨st, by simp [ctorScan, getline, hfb], rfl, rfl, rfl⟩
    · rw [Bool.not_eq_true] at hfb
      cases hdrop : st.lines.drop st.pos with
      | nil =>
        exact ⟨{ st with failbit := true }, by simp [ctorScan, getline_nil st hfb hdrop],
          rfl, rfl, rfl⟩
      | cons l rest =>
        have hpos : st.pos < st.lines.length := by
          have := congrArg List.length hdrop
          rw [List.length_drop, List.length_cons] at this
          omega
        have hrel : relevant l pfx = false := by
          have := List.all_eq_true.mp hall l (by rw [hdrop]; exact List.mem_cons_self _ _)
          simpa using this
        have hdrop1 : st.lines.drop (st.pos + 1) = rest :=
          drop_succ_of_drop_cons _ _ _ _ hdrop
        have hall1 : ((st.lines.drop (st.pos + 1)).all (fun l' => !(relevant l' pfx))) = true := by
          rw [hdrop1]
          rw [hdrop] at hall
          simp only [List.all_cons, Bool.and_eq_true] at hall
          exact hall.2
        have hbound1 : st.lines.length - (st.pos + 1) < f := by omega
        obtain ⟨st', hsc, hb, he, hr⟩ := ih
          (setBlk bid (fun b => { b with base := tellg { st with pos := st.pos + 1, fLineno := st.fLineno + 1 }, beginline := st.fLineno + 1 })
            { st with pos := st.pos + 1, fLineno := st.fLineno + 1 })
          (by simpa [setBlk] using hbound1)
          (by simpa [setBlk] using hall1)
        refine ⟨st', ?_, by simpa [setBlk] using hb, by simpa [setBlk] using he,
          by simpa [setBlk] using hr⟩
        rw [ctorScan, getline_cons st l rest hfb hdrop]
        simp only [hrel, Bool.false_eq_true, if_true, if_false]
        convert hsc using 2

/-- C9 (confirmed): in Verify mode, when every remaining line of the
trace is irrelevant to the new block's prefix, the `block` constructor
scans to end of file and returns normally — the block stays pushed on the
stack, no error is set or raised, and no `EnterBlock` entry is appended
to the journal. -/
theorem c9_open_scan_to_eof (n : String) (st : DState)
    (hw : st.fWriting = false) (he : st.fError = "")
    (hall : (st.lines.drop st.pos).all
      (fun l => !(relevant l ((topBlk st).pfx ++ "/" ++ n))) = true) :
    ∃ st', block_ctor n st = .ok (st.nextId, st') ∧
      st'.fBlocks = st.nextId :: st.fBlocks ∧
      st'.fError = "" ∧
      st'.fRecord = st.fRecord := by
  have hcond : ¬(st.fError ≠ "") := by simp [he]
  have hwr : (ctorPush n st).fWriting = false := by simp [ctorPush, hw]
  obtain ⟨st', hsc, hb, herr, hrec⟩ :=
    ctorScan_all_irrelevant ((topBlk st).pfx ++ "/" ++ n)
      ("[" ++ ((topBlk st).pfx ++ "/" ++ n) ++ "[")
      (ctorSeed st.nextId (ctorPush n st)).fChannel st.nextId
      (scanFuel (ctorSeed st.nextId (ctorPush n st)))
      (ctorSeed st.nextId (ctorPush n st))
      (by simp [ctorSeed, setBlk, ctorPush, scanFuel]; omega)
      (by simpa [ctorSeed, setBlk, ctorPush] using hall)
  refine ⟨st', ?_, ?_, ?_, ?_⟩
  · rw [block_ctor, if_neg hcond]
    simp only [hwr, Bool.false_eq_true, if_false]
    rw [hsc]
  · rw [hb]; simp [ctorSeed, setBlk, ctorPush]
  · rw [herr]; simp [ctorSeed, setBlk, ctorPush, he]
  · rw [hrec]; simp [ctorSeed, setBlk, ctorPush]

/-- Witness for C9 on a concrete one-line file whose only line is
irrelevant to the opened block. -/
theorem c9_open_scan_to_eof_witness :
    (initDilog "c" (some ["zzz"])).fWriting = false ∧
    (initDilog "c" (some ["zzz"])).fError = "" ∧
    ((initDilog "c" (some ["zzz"])).lines.drop (initDilog "c" (some ["zzz"])).pos).all
      (fun l => !(relevant l ((topBlk (initDilog "c" (some ["zzz"]))).pfx ++ "/" ++ "b"))) = true ∧
    (∃ st', block_ctor "b" (initDilog "c" (some ["zzz"])) = .ok ((initDilog "c" (some ["zzz"])).nextId, st') ∧
      st'.fBlocks = (initDilog "c" (some ["zzz"])).nextId :: (initDilog "c" (some ["zzz"])).fBlocks ∧
      st'.fError = "" ∧
      st'.fRecord = (initDilog "c" (some ["zzz"])).fRecord) := by
  refine ⟨rfl, rfl, by decide, ?_⟩
  exact c9_open_scan_to_eof "b" (initDilog "c" (some ["zzz"])) rfl rfl (by decide)

/-! ## C2: permuted nested iterations (code bug)

The record run of `c2RecOps` writes `c2File`, whose two outer iterations
of `O` are contiguous; replaying the same call sequence verifies cleanly,
but emitting the same multiset of `O` iterations in the other order with
identical per-iteration content makes the reorder search replay the
journal entry `EnterBlock(c/O/I)` with no rolled-back user block
available: it then synthesizes a block through the public constructor,
whose verify-mode scan reads the iteration content, records an
unexpected-frame error, and throws — inside `~block`, so the exception
escapes a noexcept destructor and the process dies. -/

set_option maxHeartbeats 2000000 in
/-- C2 (code bug): the permuted verify run of the nested trace does not
succeed — it dies with an exception escaping the block destructor —
while the identity verify run of the same trace succeeds. -/
theorem c2_nested_swap_crashes :
    recordedLines (runOps 40 c2RecOps [] (initDilog "c" none)) = c2File ∧
    isOk (runOps 40 c2RecOps [] (initDilog "c" (some c2File))) = true ∧
    isTerminated (runOps 40 c2VerOps [] (initDilog "c" (some c2File))) = true := by
  refine ⟨?_, ?_, ?_⟩ <;>
    simp [runOps, block_ctor, ctorPush, ctorSeed, block_dtor, printf, check_message, cmLoop,
          dtorLoop, next_block, nb_openScan, replayLoop, replayScan, scanClose,
          ctorScan, initDilog, getline, seekg, tellg, setBlk, topBlk, heapGet,
          heapSet, alistGet, alistSet, mapInsert, mapErase, mapNextAfter, relevant,
          strFind, strFindAux, strStarts, strDrop, lastComponent, printfPayload,
          vsnTrunc, strchrCut, strchrIdx, normMsg, normMsgAux, scanFuel, replayFuel,
          c2RecOps, c2VerOps, c2File, recordedLines, isOk, isTerminated]

/-! ## C7: the prefix-chain invariant under replay synthesis (code bug) -/

set_option maxHeartbeats 2000000 in
/-- C7 (code bug): verifying `c7Ops` against the truncated trace
`c7File` drives the reorder search into the replay fresh-synthesis path;
the public constructor invoked there pushes the new block onto `fBlocks`
itself and returns normally (its scan hits end of file), after which the
replay code pushes the same block a second time.  The resulting stack
`[3, 3, 1, 0]` has two adjacent equal blocks, violating the prefix-chain
invariant; immediately afterwards the `assert(fBreplay.size() == 0)`
check fails. -/
theorem c7_replay_synthesis_double_push :
    isAssertFail (runOps 40 c7Ops [] (initDilog "c" (some c7File))) = true ∧
    (faultDState? (runOps 40 c7Ops [] (initDilog "c" (some c7File)))).map
      (fun st => (st.fBlocks, stackChainOk st)) = some ([3, 3, 1, 0], false) := by
  refine ⟨?_, ?_⟩ <;>
    simp [runOps, block_ctor, ctorPush, ctorSeed, block_dtor, printf, check_message, cmLoop,
          dtorLoop, next_block, nb_openScan, replayLoop, replayScan, scanClose,
          ctorScan, initDilog, getline, seekg, tellg, setBlk, topBlk, heapGet,
          heapSet, alistGet, alistSet, mapInsert, mapErase, mapNextAfter, relevant,
          strFind, strFindAux, strStarts, strDrop, lastComponent, printfPayload,
          vsnTrunc, strchrCut, strchrIdx, normMsg, normMsgAux, scanFuel, replayFuel,
          c7Ops, c7File, isAssertFail, faultDState?, stackChainOk, chainOkAux]

/-! ## C1: record-then-verify round trip

The lemmas below relate a record-mode run to the pure recorder `recGo`
and then show that the identical call sequence in verify mode consumes
the recorded file line by line: each operation's scan matches its
expected line immediately, so the reorder search never starts. -/

theorem pfx_facts (ch p : String) (hch : chanOk ch = true) (hp : pfxOk ch p = true) :
    p.data ≠ [] ∧ p.data.head? ≠ some '[' ∧ p.data.head? ≠ some ']' ∧ noNl p = true := by
  rw [chanOk] at hch
  rw [pfxOk, Bool.and_eq_true] at hp
  cases hcd : ch.data with
  | nil => rw [hcd] at hch; exact absurd hch (by simp)
  | cons c0 t =>
    rw [hcd] at hch hp
    have hc0 : c0 ≠ '[' ∧ c0 ≠ ']' := by
      have := hch
      simp only [Bool.and_eq_true, bne_iff_ne, ne_eq] at this
      simpa using this
    have hhead : p.data.head? = some c0 := by
      have := hp.1
      simpa using this
    refine ⟨?_, ?_, ?_, hp.2⟩
    · intro hnil
      rw [hnil] at hhead
      exact absurd hhead (by simp)
    · rw [hhead]
      simp [hc0.1]
    · rw [hhead]
      simp [hc0.2]

theorem noNl_append (s t : String) (hs : noNl s = true) (ht : noNl t = true) :
    noNl (s ++ t) = true := by
  rw [noNl, String.data_append, List.all_append]
  rw [noNl] at hs ht
  simp [hs, ht]

theorem pfxOk_append (ch p n : String) (hch : chanOk ch = true)
    (hp : pfxOk ch p = true) (hn : noNl n = true) :
    pfxOk ch (p ++ "/" ++ n) = true := by
  obtain ⟨hne, _, _, hnl⟩ := pfx_facts ch p hch hp
  rw [pfxOk, Bool.and_eq_true]
  rw [pfxOk, Bool.and_eq_true] at hp
  constructor
  · have hdata : (p ++ "/" ++ n).data = p.data ++ ("/".data ++ n.data) := by
      rw [String.data_append, String.data_append, List.append_assoc]
    rw [hdata]
    cases hpd : p.data with
    | nil => exact absurd hpd hne
    | cons a b =>
      rw [hpd] at hp
      simpa using hp.1
  · exact noNl_append _ _ (noNl_append _ _ hnl (by rfl)) hn

/-- A framed line built from a well-formed prefix is relevant to that
prefix. -/
theorem relevant_open_frame (ch p r : String) (hch : chanOk ch = true)
    (hp : pfxOk ch p = true) : relevant ("[" ++ p ++ r) p = true := by
  obtain ⟨hne, hheadO, _, _⟩ := pfx_facts ch p hch hp
  refine relevant_of_shape '[' p r _ hne hheadO ?_
  rw [String.data_append, String.data_append]
  rfl

theorem relevant_close_frame (ch p r : String) (hch : chanOk ch = true)
    (hp : pfxOk ch p = true) : relevant ("]" ++ p ++ r) p = true := by
  obtain ⟨hne, _, hheadC, _⟩ := pfx_facts ch p hch hp
  refine relevant_of_shape ']' p r _ hne hheadC ?_
  rw [String.data_append, String.data_append]
  rfl

/-- Updating a fresh heap id leaves the prefixes of the existing stack
unchanged. -/
theorem map_pfx_heapSet (h : List (Nat × Blk)) (b : Blk) (j : Nat) (l : List Nat)
    (hb : ∀ i ∈ l, i ≠ j) :
    l.map (fun i => (heapGet (heapSet h j b) i).pfx) =
      l.map (fun i => (heapGet h i).pfx) := by
  induction l with
  | nil => rfl
  | cons x xs ih =>
    have hx : x ≠ j := hb x (List.mem_cons_self _ _)
    rw [List.map_cons, List.map_cons, heapGet_heapSet_ne _ _ _ _ hx,
      ih (fun i hi => hb i (List.mem_cons_of_mem _ hi))]

/-- The shape of the prefix stack: its head is the top block's prefix. -/
theorem pstk_head (st : DState) (us : List Nat) (pstk : List String)
    (hstk : st.fBlocks = us ++ [0])
    (hpfx : st.fBlocks.map (fun i => (heapGet st.heap i).pfx) = pstk) :
    ∃ p0 rest, pstk = p0 :: rest ∧ (topBlk st).pfx = p0 := by
  cases us with
  | nil =>
    rw [hstk] at hpfx
    refine ⟨(heapGet st.heap 0).pfx, [], hpfx.symm, ?_⟩
    rw [topBlk, hstk]
    rfl
  | cons b us' =>
    rw [hstk] at hpfx
    rw [List.cons_append, List.map_cons] at hpfx
    refine ⟨(heapGet st.heap b).pfx, ((us' ++ [0]).map (fun i => (heapGet st.heap i).pfx)),
      hpfx.symm, ?_⟩
    rw [topBlk, hstk]
    rfl

/-- Opening a block in record mode appends its opening frame. -/
theorem rec_open_step (ch n : String) (st : DState) (us : List Nat) (pstk : List String)
    (inv : RecInv ch st us pstk) (hch : chanOk ch = true) (hn : noNl n = true) :
    ∃ st', block_ctor n st = .ok (st.nextId, st') ∧
      st'.lines = st.lines ++ ["[" ++ (pstk.headD "" ++ "/" ++ n) ++ "["] ∧
      RecInv ch st' (st.nextId :: us) ((pstk.headD "" ++ "/" ++ n) :: pstk) := by
  obtain ⟨p0, rest, hps, htop⟩ := pstk_head st us pstk inv.hstk inv.hpfx
  have hp0 : pfxOk ch p0 = true := by
    have := inv.hok
    rw [hps, pstkOk, Bool.and_eq_true] at this
    exact this.1
  refine ⟨{ ctorPush n st with
      lines := (ctorPush n st).lines ++ ["[" ++ ((topBlk st).pfx ++ "/" ++ n) ++ "["],
      fLineno := (ctorPush n st).fLineno + 1 }, ?_, ?_, ?_⟩
  · simp only [block_ctor]
    rw [if_neg (by simp [inv.herr])]
    rw [if_pos (show (ctorPush n st).fWriting = true by simp [ctorPush, inv.hw])]
  · simp [ctorPush, htop, hps]
  · refine ⟨by simp [ctorPush, inv.hw], by simp [ctorPush, inv.herr],
      by simp [ctorPush, inv.hstk], ?_, ?_, ?_, ?_⟩
    · show (st.nextId :: st.fBlocks).map
        (fun i => (heapGet (ctorPush n st).heap i).pfx) = _
      rw [List.map_cons]
      have hne : ∀ i ∈ st.fBlocks, i ≠ st.nextId :=
        fun i hi => Nat.ne_of_lt (inv.hbound i hi)
      rw [show (ctorPush n st).heap = heapSet st.heap st.nextId
          { name := n, pfx := (topBlk st).pfx ++ "/" ++ n,
            base := 0, beginline := 0, ireplay := 0 } from rfl]
      rw [heapGet_heapSet_self, map_pfx_heapSet _ _ _ _ hne, inv.hpfx]
      rw [hps, htop]
      rfl
    · intro i hi
      simp only [ctorPush] at hi ⊢
      rcases List.mem_cons.mp hi with h | h
      · omega
      · have := inv.hbound i h
        omega
    · rw [pstkOk, Bool.and_eq_true]
      refine ⟨?_, inv.hok⟩
      rw [hps]
      show pfxOk ch (p0 ++ "/" ++ n) = true
      exact pfxOk_append ch p0 n hch hp0 hn
    · simp [ctorPush, inv.hlen]

/-- A message in record mode appends its framed line. -/
theorem rec_msg_step (ch s : String) (st : DState) (us : List Nat) (pstk : List String)
    (f : Nat) (inv : RecInv ch st us pstk) :
    ∃ st', printf s f st = .ok ((s.data.length : Int), st') ∧
      st'.lines = st.lines ++ ["[" ++ pstk.headD "" ++ "]" ++ printfPayload s] ∧
      RecInv ch st' us pstk := by
  obtain ⟨p0, rest, hps, htop⟩ := pstk_head st us pstk inv.hstk inv.hpfx
  refine ⟨{ st with
      lines := st.lines ++ ["[" ++ (topBlk st).pfx ++ "]" ++ printfPayload s],
      fLineno := st.fLineno + 1 }, ?_, ?_, ?_⟩
  · simp only [printf]
    rw [if_neg (by simp [inv.herr])]
    rw [if_pos inv.hw]
  · simp [htop, hps]
  · exact ⟨inv.hw, inv.herr, inv.hstk, inv.hpfx, inv.hbound, inv.hok,
      by simp [inv.hlen]⟩

/-- Closing the innermost open block in record mode appends its closing
frame. -/
theorem rec_close_step (ch : String) (st : DState) (bid : Nat) (us' : List Nat)
    (pstk : List String) (f : Nat) (inv : RecInv ch st (bid :: us') pstk) :
    ∃ st' p0 rest, pstk = p0 :: rest ∧
      block_dtor bid f st = .ok st' ∧
      st'.lines = st.lines ++ ["]" ++ p0 ++ "]"] ∧
      RecInv ch st' us' rest := by
  obtain ⟨p0, rest, hps, htop⟩ := pstk_head st (bid :: us') pstk inv.hstk inv.hpfx
  have hhead : st.fBlocks.headD (bid + 1) = bid := by
    rw [inv.hstk]; rfl
  have hpfxbid : (heapGet st.heap bid).pfx = p0 := by
    have := htop
    rw [topBlk, inv.hstk] at this
    exact this
  refine ⟨{ st with
      lines := st.lines ++ ["]" ++ (heapGet st.heap bid).pfx ++ "]"],
      fLineno := st.fLineno + 1,
      fBlocks := st.fBlocks.tail }, p0, rest, hps, ?_, ?_, ?_⟩
  · simp only [block_dtor]
    rw [if_neg (by rw [hhead]; simp)]
    rw [if_pos inv.hw]
  · rw [hpfxbid]
  · have hstk' : st.fBlocks.tail = us' ++ [0] := by rw [inv.hstk]; rfl
    have hpfx' : st.fBlocks.tail.map (fun i => (heapGet st.heap i).pfx) = rest := by
      have := inv.hpfx
      rw [inv.hstk, List.cons_append, List.map_cons, hps] at this
      have := (List.cons.injEq _ _ _ _).mp this
      rw [inv.hstk]
      exact this.2
    refine ⟨inv.hw, inv.herr, hstk', hpfx', ?_, ?_, by simp [inv.hlen]⟩
    · intro i hi
      refine inv.hbound i ?_
      rw [inv.hstk] at hi ⊢
      exact List.mem_cons_of_mem _ hi
    · have := inv.hok
      rw [hps, pstkOk, Bool.and_eq_true] at this
      exact this.2

/-- A record-mode run executes without error and appends exactly the
lines of the pure recorder `recGo`; the line counter tracks the file
length throughout. -/
theorem record_run (ch : String) (f : Nat) :
    ∀ (ops : List Op) (st : DState) (us : List Nat) (pstk : List String),
      RecInv ch st us pstk → chanOk ch = true → opsNoNl ops = true →
      ∃ st', runOps f ops us st = .ok st' ∧
        st'.lines = st.lines ++ recGo pstk ops ∧
        st'.fLineno = st'.lines.length := by
  intro ops
  induction ops with
  | nil =>
    intro st us pstk inv _ _
    exact ⟨st, rfl, by simp [recGo], inv.hlen⟩
  | cons op rest ih =>
    intro st us pstk inv hch hops
    cases op with
    | openB n =>
      rw [opsNoNl, Bool.and_eq_true] at hops
      obtain ⟨st1, hctor, hlines1, inv1⟩ := rec_open_step ch n st us pstk inv hch hops.1
      obtain ⟨st', hrun, hlines, hlen⟩ :=
        ih st1 (st.nextId :: us) ((pstk.headD "" ++ "/" ++ n) :: pstk) inv1 hch hops.2
      refine ⟨st', ?_, ?_, hlen⟩
      · rw [runOps, hctor]
        exact hrun
      · rw [hlines, hlines1, recGo, List.append_assoc]
        rfl
    | msg s =>
      rw [opsNoNl] at hops
      obtain ⟨st1, hpr, hlines1, inv1⟩ := rec_msg_step ch s st us pstk f inv
      obtain ⟨st', hrun, hlines, hlen⟩ := ih st1 us pstk inv1 hch hops
      refine ⟨st', ?_, ?_, hlen⟩
      · rw [runOps, hpr]
        exact hrun
      · rw [hlines, hlines1, recGo, List.append_assoc]
        rfl
    | closeB =>
      rw [opsNoNl] at hops
      cases us with
      | nil =>
        have hpstk : pstk = [(heapGet st.heap 0).pfx] := by
          have := inv.hpfx
          rw [inv.hstk] at this
          exact this.symm
        obtain ⟨st', hrun, hlines, hlen⟩ := ih st [] pstk inv hch hops
        refine ⟨st', ?_, ?_, hlen⟩
        · rw [runOps]
          exact hrun
        · rw [hlines, hpstk, recGo]
      | cons bid us' =>
        obtain ⟨st1, p0, rest0, hps, hdtor, hlines1, inv1⟩ :=
          rec_close_step ch st bid us' pstk f inv
        obtain ⟨st', hrun, hlines, hlen⟩ := ih st1 us' rest0 inv1 hch hops
        refine ⟨st', ?_, ?_, hlen⟩
        · rw [runOps, hdtor]
          exact hrun
        · have hne : rest0 ≠ [] := by
            rw [← inv1.hpfx, inv1.hstk]
            simp
          cases rest0 with
          | nil => exact absurd rfl hne
          | cons q qs =>
            rw [hlines, hlines1, hps, recGo, List.append_assoc] <;> simp

/-- One step of the constructor scan when the cursor sits on the
expected opening frame: the scan returns immediately with the frame
consumed. -/
theorem ctorScan_match_step (pfx mexp ch : String) (bid : Nat) (ss : DState)
    (l : String) (rest : List String)
    (hfb : ss.failbit = false) (hl : ss.lines.drop ss.pos = l :: rest)
    (hrel : relevant l pfx = true) (heq : l = mexp) :
    ctorScan pfx mexp ch bid (ss.lines.length + 1) ss =
      .ok (ctorScanOkState pfx bid ss) := by
  subst heq
  simp only [ctorScan]
  rw [getline_cons ss l rest hfb hl]
  simp only [hrel, Bool.true_eq_false, if_false, eq_self_iff_true, if_true]
  rfl

/-- Opening a block in verify mode when the cursor sits on the recorded
opening frame: the frame is consumed and the invariant is preserved with
the new prefix pushed. -/
theorem ver_open_step (ch n : String) (st : DState) (us : List Nat)
    (pstk : List String) (rest' : List String)
    (inv : VInv ch st us pstk) (hch : chanOk ch = true) (hn : noNl n = true)
    (hline : st.lines.drop st.pos = ("[" ++ (pstk.headD "" ++ "/" ++ n) ++ "[") :: rest') :
    ∃ st', block_ctor n st = .ok (st.nextId, st') ∧
      VInv ch st' (st.nextId :: us) ((pstk.headD "" ++ "/" ++ n) :: pstk) ∧
      st'.lines = st.lines ∧ st'.pos = st.pos + 1 := by
  obtain ⟨p0, rest0, hps, htop⟩ := pstk_head st us pstk inv.hstk inv.hpfx
  have hp0 : pfxOk ch p0 = true := by
    have := inv.hok
    rw [hps, pstkOk, Bool.and_eq_true] at this
    exact this.1
  have hpnew : pfxOk ch (p0 ++ "/" ++ n) = true := pfxOk_append ch p0 n hch hp0 hn
  have hhead : pstk.headD "" = p0 := by rw [hps]; rfl
  have hseed_lines : (ctorSeed st.nextId (ctorPush n st)).lines = st.lines := by
    simp [ctorSeed, setBlk, ctorPush]
  have hseed_pos : (ctorSeed st.nextId (ctorPush n st)).pos = st.pos := by
    simp [ctorSeed, setBlk, ctorPush]
  have hseed_fail : (ctorSeed st.nextId (ctorPush n st)).failbit = false := by
    simp [ctorSeed, setBlk, ctorPush, inv.hfail]
  have hlineS : (ctorSeed st.nextId (ctorPush n st)).lines.drop
      (ctorSeed st.nextId (ctorPush n st)).pos =
      ("[" ++ ((topBlk st).pfx ++ "/" ++ n) ++ "[") :: rest' := by
    rw [hseed_lines, hseed_pos, htop, ← hhead]
    exact hline
  have hrel : relevant ("[" ++ ((topBlk st).pfx ++ "/" ++ n) ++ "[")
      ((topBlk st).pfx ++ "/" ++ n) = true := by
    rw [htop]
    exact relevant_open_frame ch (p0 ++ "/" ++ n) "[" hch hpnew
  have hstep := ctorScan_match_step ((topBlk st).pfx ++ "/" ++ n)
    ("[" ++ ((topBlk st).pfx ++ "/" ++ n) ++ "[")
    (ctorSeed st.nextId (ctorPush n st)).fChannel st.nextId
    (ctorSeed st.nextId (ctorPush n st))
    ("[" ++ ((topBlk st).pfx ++ "/" ++ n) ++ "[") rest' hseed_fail hlineS hrel rfl
  have hwr : (ctorPush n st).fWriting = false := by simp [ctorPush, inv.hw]
  refine ⟨ctorScanOkState ((topBlk st).pfx ++ "/" ++ n) st.nextId
      (ctorSeed st.nextId (ctorPush n st)), ?_, ?_, ?_, ?_⟩
  · rw [block_ctor, if_neg (by simp [inv.herr])]
    simp only [hwr, Bool.false_eq_true, if_false, scanFuel]
    rw [hseed_lines] at hstep ⊢
    rw [hstep]
  · have hne : ∀ i ∈ st.fBlocks, i ≠ st.nextId :=
      fun i hi => Nat.ne_of_lt (inv.hbound i hi)
    refine ⟨?_, ?_, ?_, ?_, ?_, ?_, ?_, ?_, ?_, ?_, ?_⟩
    · simp [ctorScanOkState, ctorSeed, setBlk, ctorPush, inv.hw]
    · simp [ctorScanOkState, ctorSeed, setBlk, ctorPush, inv.hfail]
    · simp [ctorScanOkState, ctorSeed, setBlk, ctorPush, inv.herr]
    · simp [ctorScanOkState, ctorSeed, setBlk, ctorPush, inv.hstk]
    · show (st.nextId :: st.fBlocks).map _ = _
      rw [List.map_cons]
      have h1 : (heapGet (ctorScanOkState ((topBlk st).pfx ++ "/" ++ n) st.nextId
          (ctorSeed st.nextId (ctorPush n st))).heap st.nextId).pfx =
          (topBlk st).pfx ++ "/" ++ n := by
        simp [ctorScanOkState, ctorSeed, setBlk, ctorPush, heapGet_heapSet_self]
      have h2 : st.fBlocks.map (fun i => (heapGet (ctorScanOkState
          ((topBlk st).pfx ++ "/" ++ n) st.nextId
          (ctorSeed st.nextId (ctorPush n st))).heap i).pfx) =
          st.fBlocks.map (fun i => (heapGet st.heap i).pfx) := by
        show st.fBlocks.map (fun i => (heapGet (heapSet _ st.nextId _) i).pfx) = _
        rw [map_pfx_heapSet _ _ _ _ hne]
        show st.fBlocks.map (fun i => (heapGet (heapSet _ st.nextId _) i).pfx) = _
        rw [map_pfx_heapSet _ _ _ _ hne]
        show st.fBlocks.map (fun i => (heapGet (heapSet _ st.nextId _) i).pfx) = _
        rw [map_pfx_heapSet _ _ _ _ hne]
      rw [h1, h2, inv.hpfx, htop, hhead]
    · intro i hi
      have hib : i ∈ st.nextId :: st.fBlocks := by
        have : (ctorScanOkState ((topBlk st).pfx ++ "/" ++ n) st.nextId
            (ctorSeed st.nextId (ctorPush n st))).fBlocks = st.nextId :: st.fBlocks := by
          simp [ctorScanOkState, ctorSeed, setBlk, ctorPush]
        rw [this] at hi
        exact hi
      have hnid : (ctorScanOkState ((topBlk st).pfx ++ "/" ++ n) st.nextId
          (ctorSeed st.nextId (ctorPush n st))).nextId = st.nextId + 1 := by
        simp [ctorScanOkState, ctorSeed, setBlk, ctorPush]
      rw [hnid]
      rcases List.mem_cons.mp hib with h | h
      · omega
      · have := inv.hbound i h
        omega
    · rw [pstkOk, Bool.and_eq_true]
      exact ⟨by rw [hhead]; exact hpnew, inv.hok⟩
    · simp [ctorScanOkState, ctorSeed, setBlk, ctorPush, inv.hline]
    · simp [ctorScanOkState, ctorSeed, setBlk, ctorPush, inv.hblanks]
    · simp [ctorScanOkState, ctorSeed, setBlk, ctorPush, inv.hbreplay]
    · intro p
      have : (ctorScanOkState ((topBlk st).pfx ++ "/" ++ n) st.nextId
          (ctorSeed st.nextId (ctorPush n st))).fBlinks = st.fBlinks := by
        simp [ctorScanOkState, ctorSeed, setBlk, ctorPush]
      rw [this]
      exact inv.hblinks p
  · simp [ctorScanOkState, ctorSeed, setBlk, ctorPush]
  · simp [ctorScanOkState, ctorSeed, setBlk, ctorPush]

/-- A message in verify mode when the cursor sits on the recorded
message line: the line is consumed and the invariant preserved. -/
theorem ver_msg_step (ch s : String) (st : DState) (us : List Nat)
    (pstk rest' : List String) (f : Nat)
    (inv : VInv ch st us pstk) (hch : chanOk ch = true)
    (hline : st.lines.drop st.pos =
      ("[" ++ pstk.headD "" ++ "]" ++ printfPayload s) :: rest') :
    ∃ st', printf s (f + 1) st = .ok ((s.data.length : Int), st') ∧
      VInv ch st' us pstk ∧ st'.lines = st.lines ∧ st'.pos = st.pos + 1 := by
  obtain ⟨p0, rest0, hps, htop⟩ := pstk_head st us pstk inv.hstk inv.hpfx
  have hp0 : pfxOk ch p0 = true := by
    have := inv.hok
    rw [hps, pstkOk, Bool.and_eq_true] at this
    exact this.1
  have hhead : pstk.headD "" = p0 := by rw [hps]; rfl
  have hrel : relevant ("[" ++ p0 ++ "]" ++ printfPayload s) p0 = true := by
    obtain ⟨hne, hheadO, _, _⟩ := pfx_facts ch p0 hch hp0
    refine relevant_of_shape '[' p0 ("]" ++ printfPayload s) _ hne hheadO ?_
    rw [String.data_append, String.data_append, String.data_append]
    simp
  have hlinep : st.lines.drop st.pos =
      ("[" ++ (topBlk st).pfx ++ "]" ++ printfPayload s) :: rest' := by
    rw [htop, ← hhead]
    exact hline
  refine ⟨if st.fBlocks.length > 1 then
      { st with pos := st.pos + 1, fLineno := st.fLineno + 1,
                fRecord := st.fRecord ++ ["[]" ++ printfPayload s] }
    else { st with pos := st.pos + 1, fLineno := st.fLineno + 1 }, ?_, ?_, ?_, ?_⟩
  · have hrelT : relevant ("[" ++ (topBlk st).pfx ++ "]" ++ printfPayload s)
        (topBlk st).pfx = true := by
      rw [htop]; exact hrel
    simp only [printf]
    rw [if_neg (by simp [inv.herr])]
    rw [if_neg (by simp [inv.hw])]
    simp only [check_message, normMsg_printfPayload]
    rw [cmLoop]
    rw [getline_cons st _ rest' inv.hfail hlinep]
    simp only [hrelT, Bool.true_eq_false, if_false, eq_self_iff_true, if_true]
  · by_cases hb : st.fBlocks.length > 1
    · rw [if_pos hb]
      exact ⟨inv.hw, inv.hfail, inv.herr, inv.hstk, inv.hpfx, inv.hbound, inv.hok,
        by simp [inv.hline], inv.hblanks, inv.hbreplay, inv.hblinks⟩
    · rw [if_neg hb]
      exact ⟨inv.hw, inv.hfail, inv.herr, inv.hstk, inv.hpfx, inv.hbound, inv.hok,
        by simp [inv.hline], inv.hblanks, inv.hbreplay, inv.hblinks⟩
  · by_cases hb : st.fBlocks.length > 1
    · rw [if_pos hb]
    · rw [if_neg hb]
  · by_cases hb : st.fBlocks.length > 1
    · rw [if_pos hb]
    · rw [if_neg hb]

/-- Closing the innermost open block in verify mode when the cursor sits
on the recorded closing frame: the frame is consumed, the block is
popped, and — with no unmatched-iteration bookkeeping pending — the
invariant is preserved. -/
theorem ver_close_step (ch : String) (st : DState) (bid : Nat) (us' : List Nat)
    (pstk rest' : List String) (f : Nat)
    (inv : VInv ch st (bid :: us') pstk) (hch : chanOk ch = true)
    (hline : st.lines.drop st.pos = ("]" ++ pstk.headD "" ++ "]") :: rest') :
    ∃ st' p0 rest0, pstk = p0 :: rest0 ∧
      block_dtor bid (f + 1) st = .ok st' ∧
      VInv ch st' us' rest0 ∧ st'.lines = st.lines ∧ st'.pos = st.pos + 1 := by
  obtain ⟨p0, rest0, hps, htop⟩ := pstk_head st (bid :: us') pstk inv.hstk inv.hpfx
  have hp0 : pfxOk ch p0 = true := by
    have := inv.hok
    rw [hps, pstkOk, Bool.and_eq_true] at this
    exact this.1
  have hhead : pstk.headD "" = p0 := by rw [hps]; rfl
  have hheadB : st.fBlocks.headD (bid + 1) = bid := by rw [inv.hstk]; rfl
  have hpfxbid : (heapGet st.heap bid).pfx = p0 := by
    have := htop
    rw [topBlk, inv.hstk] at this
    exact this
  have hrel : relevant ("]" ++ p0 ++ "]") p0 = true :=
    relevant_close_frame ch p0 "]" hch hp0
  have hlinep : st.lines.drop st.pos =
      ("]" ++ (heapGet st.heap bid).pfx ++ "]") :: rest' := by
    rw [hpfxbid, ← hhead]
    exact hline
  have hstk' : st.fBlocks.tail = us' ++ [0] := by rw [inv.hstk]; rfl
  have hpfx' : st.fBlocks.tail.map (fun i => (heapGet st.heap i).pfx) = rest0 := by
    have := inv.hpfx
    rw [inv.hstk, List.cons_append, List.map_cons, hps] at this
    have := (List.cons.injEq _ _ _ _).mp this
    rw [inv.hstk]
    exact this.2
  refine ⟨(if st.fBlocks.length > 2 then
      { st with pos := st.pos + 1, fLineno := st.fLineno + 1,
                fBlinks := alistSet (heapGet st.heap bid).pfx [] st.fBlinks,
                fRecord := st.fRecord ++ ["]]" ++ (heapGet st.heap bid).pfx],
                fBlocks := st.fBlocks.tail }
    else
      { st with pos := st.pos + 1, fLineno := st.fLineno + 1,
                fBlinks := alistSet (heapGet st.heap bid).pfx [] st.fBlinks,
                fRecord := [],
                fBlocks := st.fBlocks.tail }), p0, rest0, hps, ?_, ?_, ?_, ?_⟩
  · have hrelT : relevant ("]" ++ (heapGet st.heap bid).pfx ++ "]")
        (heapGet st.heap bid).pfx = true := by
      rw [hpfxbid]; exact hrel
    have hget : ∀ q : List (String × List (Int × Nat)), q = st.fBlinks →
        alistGet (heapGet st.heap bid).pfx q = [] := by
      intro q hq
      rw [hq]
      exact inv.hblinks _
    simp only [block_dtor]
    rw [if_neg (by rw [hheadB]; simp)]
    rw [if_neg (by simp [inv.hw])]
    rw [dtorLoop]
    rw [getline_cons st _ rest' inv.hfail hlinep]
    simp only [hrelT, Bool.true_eq_false, if_false, eq_self_iff_true, if_true]
    simp only [hget _ rfl, mapErase, ne_eq, not_true_eq_false, Bool.false_eq_true,
      if_false, ite_false]
    by_cases hb : st.fBlocks.length > 2
    · simp only [hb, ite_true]
    · simp only [hb, ite_false]
  · have hinvFields : ∀ st' : DState, st'.fWriting = false → st'.failbit = false →
      st'.fError = "" → st'.fBlocks = us' ++ [0] →
      st'.fBlocks.map (fun i => (heapGet st'.heap i).pfx) = rest0 →
      (∀ i ∈ st'.fBlocks, i < st'.nextId) →
      st'.fLineno = st'.pos →
      st'.fBlanks = [] → st'.fBreplay = [] →
      (∀ p, alistGet p st'.fBlinks = []) →
      VInv ch st' us' rest0 := by
      intro st' h1 h2 h3 h4 h5 h6 h7 h8 h9 h10
      have hok' : pstkOk ch rest0 = true := by
        have := inv.hok
        rw [hps, pstkOk, Bool.and_eq_true] at this
        exact this.2
      exact ⟨h1, h2, h3, h4, h5, h6, hok', h7, h8, h9, h10⟩
    have hblinks' : ∀ p, alistGet p (alistSet (heapGet st.heap bid).pfx [] st.fBlinks) = [] := by
      intro p
      by_cases hp : p = (heapGet st.heap bid).pfx
      · rw [hp, alistGet_alistSet_self]
      · rw [alistGet_alistSet_ne _ _ _ _ hp]
        exact inv.hblinks p
    have hbound' : ∀ i ∈ st.fBlocks.tail, i < st.nextId := by
      intro i hi
      refine inv.hbound i ?_
      rw [inv.hstk] at hi ⊢
      exact List.mem_cons_of_mem _ hi
    by_cases hb : st.fBlocks.length > 2
    · rw [if_pos hb]
      exact hinvFields _ inv.hw inv.hfail inv.herr hstk' hpfx' hbound'
        (by simp [inv.hline]) inv.hblanks inv.hbreplay hblinks'
    · rw [if_neg hb]
      exact hinvFields _ inv.hw inv.hfail inv.herr hstk' hpfx' hbound'
        (by simp [inv.hline]) inv.hblanks inv.hbreplay hblinks'
  · by_cases hb : st.fBlocks.length > 2
    · rw [if_pos hb]
    · rw [if_neg hb]
  · by_cases hb : st.fBlocks.length > 2
    · rw [if_pos hb]
    · rw [if_neg hb]

/-- A verify-mode run of a call sequence against exactly the lines the
pure recorder produces for it consumes the file line by line: it
completes without error, never touches the reorder search, and ends with
the cursor and line counter at the end of the consumed segment. -/
theorem verify_run (ch : String) (f : Nat) :
    ∀ (ops : List Op) (st : DState) (us : List Nat) (pstk : List String),
      VInv ch st us pstk → chanOk ch = true → opsNoNl ops = true →
      st.lines.drop st.pos = recGo pstk ops →
      ∃ st', runOps (f + 1) ops us st = .ok st' ∧
        st'.fError = "" ∧ st'.lines = st.lines ∧
        st'.pos = st.pos + (recGo pstk ops).length ∧
        st'.fLineno = st'.pos := by
  intro ops
  induction ops with
  | nil =>
    intro st us pstk inv _ _ _
    exact ⟨st, rfl, inv.herr, rfl, by simp [recGo], inv.hline⟩
  | cons op rest ih =>
    intro st us pstk inv hch hops hrem
    cases op with
    | openB n =>
      rw [opsNoNl, Bool.and_eq_true] at hops
      rw [recGo] at hrem
      obtain ⟨st1, hctor, inv1, hl1, hp1⟩ :=
        ver_open_step ch n st us pstk (recGo ((pstk.headD "" ++ "/" ++ n) :: pstk) rest)
          inv hch hops.1 hrem
      have hrem1 : st1.lines.drop st1.pos =
          recGo ((pstk.headD "" ++ "/" ++ n) :: pstk) rest := by
        rw [hl1, hp1]
        exact drop_succ_of_drop_cons _ _ _ _ hrem
      obtain ⟨st', hrun, herr, hl, hp, hfl⟩ :=
        ih st1 (st.nextId :: us) ((pstk.headD "" ++ "/" ++ n) :: pstk) inv1 hch hops.2 hrem1
      refine ⟨st', ?_, herr, by rw [hl, hl1], ?_, hfl⟩
      · rw [runOps, hctor]
        exact hrun
      · rw [hp, hp1, recGo, List.length_cons]
        omega
    | msg s =>
      rw [opsNoNl] at hops
      rw [recGo] at hrem
      obtain ⟨st1, hpr, inv1, hl1, hp1⟩ :=
        ver_msg_step ch s st us pstk (recGo pstk rest) f inv hch hrem
      have hrem1 : st1.lines.drop st1.pos = recGo pstk rest := by
        rw [hl1, hp1]
        exact drop_succ_of_drop_cons _ _ _ _ hrem
      obtain ⟨st', hrun, herr, hl, hp, hfl⟩ := ih st1 us pstk inv1 hch hops hrem1
      refine ⟨st', ?_, herr, by rw [hl, hl1], ?_, hfl⟩
      · rw [runOps, hpr]
        exact hrun
      · rw [hp, hp1, recGo, List.length_cons]
        omega
    | closeB =>
      rw [opsNoNl] at hops
      cases us with
      | nil =>
        have hpstk : pstk = [(heapGet st.heap 0).pfx] := by
          have := inv.hpfx
          rw [inv.hstk] at this
          exact this.symm
        rw [hpstk, recGo] at hrem
        obtain ⟨st', hrun, herr, hl, hp, hfl⟩ := ih st [] pstk inv hch hops
          (by rw [hpstk]; exact hrem)
        refine ⟨st', ?_, herr, hl, ?_, hfl⟩
        · rw [runOps]
          exact hrun
        · rw [hp, hpstk, recGo]
      | cons bid us' =>
        obtain ⟨p0, rest0, hps, htop⟩ := pstk_head st (bid :: us') pstk inv.hstk inv.hpfx
        have hrest0 : rest0 ≠ [] := by
          have h1 := inv.hpfx
          rw [inv.hstk, List.cons_append, List.map_cons, hps] at h1
          have h2 := (List.cons.injEq _ _ _ _).mp h1
          intro hnil
          rw [hnil] at h2
          have := h2.2
          simp at this
        cases hr0 : rest0 with
        | nil => exact absurd hr0 hrest0
        | cons q qs =>
          have hrecGo : recGo (p0 :: q :: qs) (.closeB :: rest) =
              ("]" ++ p0 ++ "]") :: recGo (q :: qs) rest := by
            rw [recGo]
            simp
          rw [hps, hr0, hrecGo] at hrem
          have hline : st.lines.drop st.pos =
              ("]" ++ pstk.headD "" ++ "]") :: recGo (q :: qs) rest := by
            rw [hps]
            exact hrem
          obtain ⟨st1, p0', rest0', hps', hdtor, inv1, hl1, hp1⟩ :=
            ver_close_step ch st bid us' pstk (recGo (q :: qs) rest) f inv hch hline
          have hinj : p0' = p0 ∧ rest0' = q :: qs := by
            have : p0 :: q :: qs = p0' :: rest0' := by
              rw [← hps', hps, hr0]
            exact ⟨((List.cons.injEq _ _ _ _).mp this.symm).1,
              ((List.cons.injEq _ _ _ _).mp this).2.symm⟩
          rw [hinj.2] at inv1
          have hrem1 : st1.lines.drop st1.pos = recGo (q :: qs) rest := by
            rw [hl1, hp1]
            exact drop_succ_of_drop_cons _ _ _ _ hrem
          obtain ⟨st', hrun, herr, hl, hp, hfl⟩ := ih st1 us' (q :: qs) inv1 hch hops hrem1
          refine ⟨st', ?_, herr, by rw [hl, hl1], ?_, hfl⟩
          · rw [runOps, hdtor]
            exact hrun
          · rw [hp, hp1, hps, hr0, hrecGo, List.length_cons]
            omega

/-- C1 (confirmed): for every call sequence over a well-formed channel,
a Record-mode run completes without error writing the trace file, and
re-running the identical call sequence in Verify mode against that file
completes without raising an error and without setting a pending error;
the verify-side line counter ends at the recorded file's line count (as
does the record-side counter). -/
theorem c1_record_then_verify (ch : String) (ops : List Op) (f : Nat)
    (hch : chanOk ch = true) (hchn : noNl ch = true) (hops : opsNoNl ops = true) :
    ∃ rst vst,
      runOps (f + 1) ops [] (initDilog ch none) = .ok rst ∧
      runOps (f + 1) ops [] (initDilog ch (some rst.lines)) = .ok vst ∧
      vst.fError = "" ∧
      vst.fLineno = rst.lines.length ∧
      rst.fLineno = rst.lines.length := by
  have hpfx0 : pfxOk ch ch = true := by
    rw [pfxOk, Bool.and_eq_true]
    exact ⟨by simp, hchn⟩
  have hok0 : pstkOk ch [ch] = true := by
    rw [pstkOk, Bool.and_eq_true]
    exact ⟨hpfx0, rfl⟩
  have invR : RecInv ch (initDilog ch none) [] [ch] := by
    refine ⟨rfl, rfl, rfl, ?_, ?_, hok0, rfl⟩
    · simp [initDilog, heapGet]
    · intro i hi
      simp [initDilog] at hi ⊢
      omega
  obtain ⟨rst, hrrun, hrlines, hrlen⟩ :=
    record_run ch (f + 1) ops (initDilog ch none) [] [ch] invR hch hops
  have hrlines' : rst.lines = recGo [ch] ops := by
    rw [hrlines]
    rfl
  have invV : VInv ch (initDilog ch (some rst.lines)) [] [ch] := by
    refine ⟨rfl, rfl, rfl, rfl, ?_, ?_, hok0, rfl, rfl, rfl, ?_⟩
    · simp [initDilog, heapGet]
    · intro i hi
      simp [initDilog] at hi ⊢
      omega
    · intro p
      rfl
  obtain ⟨vst, hvrun, hverr, hvlines, hvpos, hvlen⟩ :=
    verify_run ch f ops (initDilog ch (some rst.lines)) [] [ch] invV hch hops
      (by simp [initDilog, hrlines'])
  refine ⟨rst, vst, hrrun, hvrun, hverr, ?_, hrlen⟩
  rw [hvlen, hvpos, hrlines']
  simp [initDilog]

/-- Witness for C1 at a concrete three-operation call sequence. -/
theorem c1_record_then_verify_witness :
    chanOk "chan" = true ∧ noNl "chan" = true ∧
    opsNoNl [Op.openB "b", Op.msg "hello\n", Op.closeB] = true ∧
    (∃ rst vst,
      runOps (0 + 1) [Op.openB "b", Op.msg "hello\n", Op.closeB] []
        (initDilog "chan" none) = .ok rst ∧
      runOps (0 + 1) [Op.openB "b", Op.msg "hello\n", Op.closeB] []
        (initDilog "chan" (some rst.lines)) = .ok vst ∧
      vst.fError = "" ∧
      vst.fLineno = rst.lines.length ∧
      rst.fLineno = rst.lines.length) :=
  ⟨by decide, by decide, by decide,
   c1_record_then_verify "chan" [Op.openB "b", Op.msg "hello\n", Op.closeB] 0
     (by decide) (by decide) (by decide)⟩

end Dilog
